import Mathlib

/-!
# Shallow-water model: verification of the spec's claims against the code

A shallow embedding of `beta_plane/linear.py` and `beta_plane/nonlinear.py`
(navidcy/shallowwater).  Fields are rational-valued matrices indexed by `Fin`;
the staggered Arakawa-C storage shapes follow the shape comments in the source
(`u`: `(nx+1, ny)` interior with one padding cell on each side, etc.).

The grid-arithmetic collaborator (`arakawac`) and the multistep integrator
(`timesteppers`) are imported by the source but are not part of the core files;
where a definition comes from those collaborators it is modelled from the
spec's description of their contracts and marked `Modelled from the spec:` in
its doc comment.  Everything else is translated directly from the two Python
files.
-/

namespace ShallowWaterSpec

/-- A 2-D field: `m` columns in x (first index), `n` rows in y (second index),
rational entries (real arithmetic is modelled exactly over `ℚ`). -/
abbrev Mat (m n : ℕ) : Type := Fin m → Fin n → ℚ

/-- Modelled from the spec: the grid collaborator's x-derivative operator
`diffx`, a first difference along the first axis divided by the grid
spacing (output loses one column, as at every call site in the source). -/
def diffx (dx : ℚ) (A : Mat (m + 1) n) : Mat m n :=
  fun i j => (A i.succ j - A i.castSucc j) / dx

/-- Modelled from the spec: the grid collaborator's y-derivative operator
`diffy`, a first difference along the second axis divided by the spacing. -/
def diffy (dy : ℚ) (A : Mat m (n + 1)) : Mat m n :=
  fun i j => (A i j.succ - A i j.castSucc) / dy

/-- Modelled from the spec: the grid collaborator's x-average operator
`x_average`, the two-point mean along the first axis. -/
def x_average (A : Mat (m + 1) n) : Mat m n :=
  fun i j => (A i.succ j + A i.castSucc j) / 2

/-- Modelled from the spec: the grid collaborator's y-average operator
`y_average`, the two-point mean along the second axis. -/
def y_average (A : Mat m (n + 1)) : Mat m n :=
  fun i j => (A i j.succ + A i j.castSucc) / 2

/-- Drop the first and last column (the numpy slice `[1:-1, :]`). -/
def trimx (A : Mat (m + 2) n) : Mat m n :=
  fun i j => A ⟨i.val + 1, by omega⟩ j

/-- Drop the first and last row (the numpy slice `[:, 1:-1]`). -/
def trimy (A : Mat m (n + 2)) : Mat m n :=
  fun i j => A i ⟨j.val + 1, by omega⟩

/-- The interior (unpadded) view of a padded field: numpy `A[1:-1, 1:-1]`. -/
def interior (A : Mat (m + 2) (n + 2)) : Mat m n :=
  fun i j => A ⟨i.val + 1, by omega⟩ ⟨j.val + 1, by omega⟩

/-- Write a whole interior at once, keeping the padding border
(the assignment `A[1:-1, 1:-1] = B`, and the state setter's commit). -/
def setInterior (A : Mat (m + 2) (n + 2)) (B : Mat m n) : Mat (m + 2) (n + 2) :=
  fun i j =>
    if h : 1 ≤ i.val ∧ i.val ≤ m ∧ 1 ≤ j.val ∧ j.val ≤ n then
      B ⟨i.val - 1, by omega⟩ ⟨j.val - 1, by omega⟩
    else A i j

/-- Modelled from the spec: the grid collaborator's Laplacian `del2` of a
padded field, the five-point stencil on the interior. -/
def del2 (dx dy : ℚ) (A : Mat (m + 2) (n + 2)) : Mat m n :=
  fun i j =>
    (A ⟨i.val + 2, by omega⟩ ⟨j.val + 1, by omega⟩
      - 2 * A ⟨i.val + 1, by omega⟩ ⟨j.val + 1, by omega⟩
      + A ⟨i.val, by omega⟩ ⟨j.val + 1, by omega⟩) / dx ^ 2
    + (A ⟨i.val + 1, by omega⟩ ⟨j.val + 2, by omega⟩
      - 2 * A ⟨i.val + 1, by omega⟩ ⟨j.val + 1, by omega⟩
      + A ⟨i.val + 1, by omega⟩ ⟨j.val, by omega⟩) / dy ^ 2

/-- `linear.py` `ShallowWater._tracer_dynamics_terms` (also the advective term
bound into each tracer integrator there): `diffx(q_at_u * u) + diffy(q_at_v * v)`
where `q_at_u`/`q_at_v` are the tracer averaged to the velocity locations. -/
def tracer_dynamics_terms (dx dy : ℚ) (u : Mat (nx + 1) ny) (v : Mat nx (ny + 1))
    (q : Mat (nx + 2) (ny + 2)) : Mat nx ny :=
  diffx dx ((trimy (x_average q)) * u) + diffy dy ((trimx (y_average q)) * v)

/-- `nonlinear.py` `NonLinShallowWater.tracer_conservation`:
`diffx(q_at_u * u) - diffy(q_at_v * v)` — note the minus sign on the y term. -/
def tracer_conservation (dx dy : ℚ) (u : Mat (nx + 1) ny) (v : Mat nx (ny + 1))
    (q : Mat (nx + 2) (ny + 2)) : Mat nx ny :=
  diffx dx ((trimy (x_average q)) * u) - diffy dy ((trimx (y_average q)) * v)

/-- The discrete flux divergence ∇·(u q) prescribed by the spec's conservation
law ∂q/∂t + ∇·(u q) = 0: the x-difference of (q averaged to u-points times u)
plus the y-difference of (q averaged to v-points times v).  This is the
spec-side reference definition for claim C1. -/
def fluxDivergenceUQ (dx dy : ℚ) (u : Mat (nx + 1) ny) (v : Mat nx (ny + 1))
    (q : Mat (nx + 2) (ny + 2)) : Mat nx ny :=
  diffx dx ((trimy (x_average q)) * u) + diffy dy ((trimx (y_average q)) * v)

/-- Concrete u field (all zero) for the C1 failing input: `nx = 2`, `ny = 1`. -/
def c1u : Mat 3 1 := fun _ _ => 0

/-- Concrete v field (all ones) for the C1 failing input. -/
def c1v : Mat 2 2 := fun _ _ => 1

/-- Concrete tracer field, increasing in y, for the C1 failing input. -/
def c1q : Mat 4 3 := fun _ j => (j.val : ℚ)

/-- The tendency triple (u-tendency, v-tendency, phi-tendency), with the
per-component staggered shapes of the source (`np.array([u_rhs, v_rhs, phi_rhs])`). -/
abbrev STrip (nx ny : ℕ) : Type :=
  Mat (nx + 1) ny × Mat nx (ny + 1) × Mat nx ny

/-- The model's public read surface handed to forcing and tracer-rhs callables
(`fn(self)` in the source): the three state-field views, the clock, and each
registered tracer's interior values by name. -/
structure ModelView (nx ny : ℕ) where
  u : Mat (nx + 1) ny
  v : Mat nx (ny + 1)
  phi : Mat nx ny
  t : ℚ
  tc : ℕ
  tracers : List (String × Mat nx ny)

/-- One registered tracer: its padded cell-centre field, the dissipation
coefficient `kappa`, the damping toggle, the user-supplied tendency callable
(`none` result models the callable raising), and the private integrator's
retained history of past tendency evaluations. -/
structure Tracer (nx ny : ℕ) where
  field : Mat (nx + 2) (ny + 2)
  kappa : ℚ
  applyDamping : Bool
  userRhs : ModelView nx ny → Option (Mat nx ny)
  hist : List (Mat nx ny)

/-- The shallow-water model state shared by `linear.py`'s `ShallowWater`
family and `nonlinear.py`'s `NonLinShallowWater` family.  Padded staggered
storage shapes follow the source's shape comments; `g` and `H` are used only
by the linear dynamics, `nuPhi` only by `linear.py`'s dynamics.  `sponge`
holds the sponge-profile values (in the source `exp(-linspace(0, 5, ny//7))`,
whose irrational values are carried here as data); `dx`, `dy` are the grid
spacings owned by the grid collaborator.  Forcings returning `none` model a
raising callable. -/
structure SW (nx ny : ℕ) where
  f0 : ℚ
  beta : ℚ
  nu : ℚ
  nuPhi : ℚ
  r : ℚ
  g : ℚ
  H : ℚ
  dt : ℚ
  dx : ℚ
  dy : ℚ
  uy : Fin ny → ℚ
  vy : Fin (ny + 1) → ℚ
  spongeNY : ℕ
  sponge : ℕ → ℚ
  pu : Mat (nx + 3) (ny + 2)
  pv : Mat (nx + 2) (ny + 3)
  pphi : Mat (nx + 2) (ny + 2)
  tracers : List (String × Tracer nx ny)
  forcings : List (ModelView nx ny → Option (STrip nx ny))
  stateHist : List (STrip nx ny)
  t : ℚ
  tc : ℕ

variable {nx ny : ℕ}

/-- The unpadded view `u = _u[1:-1, 1:-1]`, shape `(nx+1, ny)`. -/
def uView (m : SW nx ny) : Mat (nx + 1) ny := interior m.pu

/-- The unpadded view `v = _v[1:-1, 1:-1]`, shape `(nx, ny+1)`. -/
def vView (m : SW nx ny) : Mat nx (ny + 1) := interior m.pv

/-- The unpadded view `phi = _phi[1:-1, 1:-1]`, shape `(nx, ny)`. -/
def phiView (m : SW nx ny) : Mat nx ny := interior m.pphi

/-- The state triple `self.state = [u, v, phi]` (unpadded views). -/
def stateTriple (m : SW nx ny) : STrip nx ny := (uView m, vView m, phiView m)

/-- The public view handed to forcing and tracer-rhs callables. -/
def viewOf (m : SW nx ny) : ModelView nx ny :=
  ⟨uView m, vView m, phiView m, m.t, m.tc,
    m.tracers.map fun p => (p.1, interior p.2.field)⟩

/-- The sponge coefficient on row `j` of a width-`b` field, after the two
sequential numpy writes `var_sponge[:, :s] = sponge` and
`var_sponge[:, -s:] = sponge[::-1]` (the second write wins on overlap). -/
def spongeMask (s : ℕ) (sponge : ℕ → ℚ) (b : ℕ) (j : ℕ) : ℚ :=
  if b - s ≤ j then sponge (s - 1 - (j - (b - s)))
  else if j < s then sponge j
  else 0

/-- `damping(var)` from both source files: Rayleigh friction localized to the
sponge rows, `r * var_sponge * var`.  Returns `none` exactly when the numpy
broadcast of the second sponge assignment fails: with `sponge_ny = 0` the
slice `[:, -0:]` selects the whole second axis and the empty profile cannot
broadcast into it (this is how a too-small `ny` surfaces), and a profile
longer than the axis (with `sponge_ny ≥ 2`) cannot broadcast either. -/
def dampingP (s : ℕ) (sponge : ℕ → ℚ) (r : ℚ) (var : Mat a b) : Option (Mat a b) :=
  if (s = 0 ∧ b ≠ 0) ∨ (2 ≤ s ∧ b < s) then none
  else some fun i j => r * spongeMask s sponge b j.val * var i j

/-- `self.damping(var)` on a model. -/
def damping (m : SW nx ny) (var : Mat a b) : Option (Mat a b) :=
  dampingP m.spongeNY m.sponge m.r var

/-- Modelled from the spec: the grid collaborator's `uvatuv()`
cross-staggered velocity interpolation; result shapes `(nx, ny+1)` and
`(nx+1, ny)` as in the source's call-site comments. -/
def uvatuv (m : SW nx ny) : Mat nx (ny + 1) × Mat (nx + 1) ny :=
  (trimx (y_average (x_average m.pu)), trimy (x_average (y_average m.pv)))

/-- Modelled from the spec: the grid collaborator's `divergence()`,
`diffx(u) + diffy(v)` on the unpadded views. -/
def divergenceM (m : SW nx ny) : Mat nx ny :=
  diffx m.dx (uView m) + diffy m.dy (vView m)

/-- The latitude-dependent Coriolis parameter at u-points,
`f0 + beta * uy`, broadcast across x as in the source. -/
def coriolisU (m : SW nx ny) : Mat (nx + 1) ny :=
  fun _ j => m.f0 + m.beta * m.uy j

/-- The Coriolis parameter at v-points, `f0 + beta * vy`. -/
def coriolisV (m : SW nx ny) : Mat nx (ny + 1) :=
  fun _ j => m.f0 + m.beta * m.vy j

/-- Sum the registered forcings onto a base tendency, in registration order
(the `for f in self._forcings: dstate += f(self)` loops of both files);
a raising forcing aborts the whole tendency evaluation. -/
def sumForcings (m : SW nx ny) (base : STrip nx ny) : Option (STrip nx ny) :=
  m.forcings.foldl
    (fun acc fn => do
      let a ← acc
      let d ← fn (viewOf m)
      pure (a + d))
    (some base)

/-- `nonlinear.py` `NonLinShallowWater.rhs` (lines 130-176), translated term
by term; `none` models an exception escaping the tendency evaluation (a
failing damping broadcast or a raising forcing). -/
def nonlinRhs (m : SW nx ny) : Option (STrip nx ny) := do
  let uatuv := uvatuv m
  let u_at_v := uatuv.1
  let v_at_u := uatuv.2
  let ubarx := trimy (x_average m.pu)
  let ubary := trimx (y_average m.pu)
  let vbary := trimx (y_average m.pv)
  let vbarx := trimy (x_average m.pv)
  let phi_at_u := trimy (x_average m.pphi)
  let phi_at_v := trimx (y_average m.pphi)
  let phiRhs := -diffx m.dx (phi_at_u * uView m) - diffy m.dy (phi_at_v * vView m)
    + m.nu • del2 m.dx m.dy m.pphi
  let dhdx := trimy (diffx m.dx m.pphi)
  let ududx := (1 / 2 : ℚ) • diffx m.dx (ubarx * ubarx)
  let vdudy := v_at_u * diffy m.dy ubary
  let du ← damping m (uView m)
  let uRhs := -dhdx + coriolisU m * v_at_u + m.nu • del2 m.dx m.dy m.pu
    - ududx - vdudy - du
  let dhdy := trimx (diffy m.dy m.pphi)
  let udvdx := u_at_v * diffx m.dx vbarx
  let vdvdy := (1 / 2 : ℚ) • diffy m.dy (vbary * vbary)
  let dv ← damping m (vView m)
  let vRhs := -dhdy - coriolisV m * u_at_v + m.nu • del2 m.dx m.dy m.pv
    - udvdx - vdvdy - dv
  sumForcings m (uRhs, vRhs, phiRhs)

/-- `linear.py` `ShallowWater._dynamics_terms` (lines 85-125): the base
class's nonlinear dynamics, identical to `nonlinear.py`'s except that the
height diffusion uses `nu_phi` (line 100) rather than `nu`. -/
def swDynamicsTerms (m : SW nx ny) : Option (STrip nx ny) := do
  let uatuv := uvatuv m
  let u_at_v := uatuv.1
  let v_at_u := uatuv.2
  let ubarx := trimy (x_average m.pu)
  let ubary := trimx (y_average m.pu)
  let vbary := trimx (y_average m.pv)
  let vbarx := trimy (x_average m.pv)
  let phi_at_u := trimy (x_average m.pphi)
  let phi_at_v := trimx (y_average m.pphi)
  let phiRhs := -diffx m.dx (phi_at_u * uView m) - diffy m.dy (phi_at_v * vView m)
    + m.nuPhi • del2 m.dx m.dy m.pphi
  let dhdx := trimy (diffx m.dx m.pphi)
  let ududx := (1 / 2 : ℚ) • diffx m.dx (ubarx * ubarx)
  let vdudy := v_at_u * diffy m.dy ubary
  let du ← damping m (uView m)
  let uRhs := -dhdx + coriolisU m * v_at_u + m.nu • del2 m.dx m.dy m.pu
    - ududx - vdudy - du
  let dhdy := trimx (diffy m.dy m.pphi)
  let udvdx := u_at_v * diffx m.dx vbarx
  let vdvdy := (1 / 2 : ℚ) • diffy m.dy (vbary * vbary)
  let dv ← damping m (vView m)
  let vRhs := -dhdy - coriolisV m * u_at_v + m.nu • del2 m.dx m.dy m.pv
    - udvdx - vdvdy - dv
  pure (uRhs, vRhs, phiRhs)

/-- `linear.py` `LinearShallowWater._dynamics_terms` (lines 225-245): the
linearized balance with separate gravity `g` and mean depth `H`. -/
def linDynamicsTerms (m : SW nx ny) : Option (STrip nx ny) := do
  let uatuv := uvatuv m
  let uu := uatuv.1
  let vv := uatuv.2
  let dh ← damping m (phiView m)
  let hRhs := (-m.H) • divergenceM m + m.nuPhi • del2 m.dx m.dy m.pphi - dh
  let dhdx := trimy (diffx m.dx m.pphi)
  let du ← damping m (uView m)
  let uRhs := coriolisU m * vv - m.g • dhdx + m.nu • del2 m.dx m.dy m.pu - du
  let dhdy := trimx (diffy m.dy m.pphi)
  let dv ← damping m (vView m)
  let vRhs := -(coriolisV m * uu) - m.g • dhdy + m.nu • del2 m.dx m.dy m.pv - dv
  pure (uRhs, vRhs, hRhs)

/-- The dynamics/step-protocol variant: `linBase` is `linear.py`'s
`ShallowWater` (nonlinear base dynamics, `+`-signed tracer advection,
deferred tracer commits), `linLinear` is `linear.py`'s `LinearShallowWater`
(same module, linearized dynamics), `nonlin` is `nonlinear.py`'s
`NonLinShallowWater` (`-`-signed tracer advection y-term, in-loop tracer
commits). -/
inductive Variant : Type
  | linBase
  | linLinear
  | nonlin
deriving DecidableEq

/-- The state tendency used by the model's own integrator: `linear.py`'s
`_rhs` is `_dynamics_terms() + self.rhs() + sum(forcings)` with the default
`rhs()` hook returning zeros; `nonlinear.py`'s `rhs` sums the forcings
internally. -/
def rhsOf : Variant → SW nx ny → Option (STrip nx ny)
  | .linBase, m => do sumForcings m (← swDynamicsTerms m)
  | .linLinear, m => do sumForcings m (← linDynamicsTerms m)
  | .nonlin, m => nonlinRhs m

/-- Everything a tracer's private `_rhs` closure reads from the live model:
the velocity views, the public view handed to the user callable, and the
damping/grid parameters. -/
structure TracerEnv (nx ny : ℕ) where
  u : Mat (nx + 1) ny
  v : Mat nx (ny + 1)
  view : ModelView nx ny
  spongeNY : ℕ
  sponge : ℕ → ℚ
  r : ℚ
  dx : ℚ
  dy : ℚ

/-- Project the tracer-rhs environment out of a model. -/
def tracerEnvOf (m : SW nx ny) : TracerEnv nx ny :=
  ⟨uView m, vView m, viewOf m, m.spongeNY, m.sponge, m.r, m.dx, m.dy⟩

/-- The tracer tendency closure built by `add_tracer` in both files:
`-advection`, plus `kappa * del2(state)` if `kappa` is nonzero, minus
sponge damping on the interior if enabled, plus the user rhs.  The
advection term is `_tracer_dynamics_terms` in `linear.py` and
`tracer_conservation` in `nonlinear.py`. -/
def tracerRhs (dyn : Variant) (e : TracerEnv nx ny) (tr : Tracer nx ny) :
    Option (Mat nx ny) := do
  let adv :=
    match dyn with
    | .nonlin => tracer_conservation e.dx e.dy e.u e.v tr.field
    | _ => tracer_dynamics_terms e.dx e.dy e.u e.v tr.field
  let o1 := -adv
  let o2 := if tr.kappa ≠ 0 then o1 + tr.kappa • del2 e.dx e.dy tr.field else o1
  let o3 ←
    if tr.applyDamping then
      (dampingP e.spongeNY e.sponge e.r (interior tr.field)).map fun d => o2 - d
    else some o2
  let ur ← tr.userRhs e.view
  pure (o3 + ur)

/-- Modelled from the spec: one increment of the multistep integrator
collaborator (`adamsbashforthgen`), an Adams-Bashforth extrapolation whose
effective order grows with the retained history (Euler on the first call,
second order on the second, third order thereafter). -/
def abInc {T : Type} [AddCommGroup T] [Module ℚ T] (dt : ℚ) (hist : List T)
    (f : T) : T :=
  match hist with
  | [] => dt • f
  | [f1] => dt • ((3 / 2 : ℚ) • f - (1 / 2 : ℚ) • f1)
  | f1 :: f2 :: _ => dt • ((23 / 12 : ℚ) • f - (16 / 12 : ℚ) • f1 + (5 / 12 : ℚ) • f2)

/-- Modelled from the spec: the integrator retains a bounded history of past
tendency evaluations (at most the two most recent, as third order needs). -/
def histPush {T : Type} (hist : List T) (f : T) : List T :=
  (f :: hist).take 2

/-- One numpy column assignment `A[i0, :] = src` (first axis); an index `i0`
outside the array is a no-op, matching the sequential in-place writes of the
boundary-condition methods. -/
def setXcol (A : Mat m n) (i0 : ℕ) (src : Fin n → ℚ) : Mat m n :=
  fun a b => if a.val = i0 then src b else A a b

/-- One numpy row assignment `A[:, j0] = src` (second axis). -/
def setYrow (A : Mat m n) (j0 : ℕ) (src : Fin m → ℚ) : Mat m n :=
  fun a b => if b.val = j0 then src a else A a b

/-- The y-boundary zero-gradient treatment of both variants:
`field[:, 0] = field[:, 1]` then `field[:, -1] = field[:, -2]`,
as sequential in-place writes. -/
def ymirror (A : Mat a (b + 2)) : Mat a (b + 2) :=
  let A1 := setYrow A 0 fun i => A i ⟨1, by omega⟩
  setYrow A1 (b + 1) fun i => A1 i ⟨b, by omega⟩

/-- Modelled from the spec: the grid collaborator's `_fix_boundary_corners`,
which the spec describes only as enforcing edge/corner consistency after the
edge treatment; consistently with the spec's exact-equality boundary
properties, each corner cell is set from its neighbour in the adjacent
interior row (the y zero-gradient rule, a no-op right after `ymirror`). -/
def fixCorners (A : Mat (a + 2) (b + 2)) : Mat (a + 2) (b + 2) :=
  fun i j =>
    if (i.val = 0 ∨ i.val = a + 1) ∧ j.val = 0 then A i ⟨1, by omega⟩
    else if (i.val = 0 ∨ i.val = a + 1) ∧ j.val = b + 1 then A i ⟨b, by omega⟩
    else A i j

/-- The boundary-condition variant mixed into a model class. -/
inductive BCVariant : Type
  | periodic
  | walled
deriving DecidableEq

/-- The x-wrap of the along-x velocity in the Periodic variant, with its
one-extra-column offset: `u[0] = u[-3]; u[1] = u[-2]; u[-1] = u[2]`
as sequential in-place writes. -/
def periodicXu (m : SW nx ny) : Mat (nx + 3) (ny + 2) :=
  let u0 := setXcol m.pu 0 fun j => m.pu ⟨nx, by omega⟩ j
  let u1 := setXcol u0 1 fun j => u0 ⟨nx + 1, by omega⟩ j
  setXcol u1 (nx + 2) fun j => u1 ⟨2, by omega⟩ j

/-- The Periodic x-wrap of the transverse velocity:
`v[0] = v[-2]; v[-1] = v[1]`. -/
def periodicXv (m : SW nx ny) : Mat (nx + 2) (ny + 3) :=
  let v0 := setXcol m.pv 0 fun j => m.pv ⟨nx, by omega⟩ j
  setXcol v0 (nx + 1) fun j => v0 ⟨1, by omega⟩ j

/-- The Periodic x-wrap of the height field:
`phi[0] = phi[-2]; phi[-1] = phi[1]`. -/
def periodicXphi (m : SW nx ny) : Mat (nx + 2) (ny + 2) :=
  let p0 := setXcol m.pphi 0 fun j => m.pphi ⟨nx, by omega⟩ j
  setXcol p0 (nx + 1) fun j => p0 ⟨1, by omega⟩ j

/-- `nonlinear.py` `PeriodicShallowWater._apply_boundary_conditions`
(lines 200-216): the x-wraps, then per field the y zero-gradient rows and
the corner fix; `linear.py`'s `PeriodicBoundaries` mixin comes from the grid
collaborator and is modelled from the spec as the same operation. -/
def periodicStateBC (m : SW nx ny) : SW nx ny :=
  { m with
    pu := fixCorners (ymirror (periodicXu m))
    pv := fixCorners (ymirror (periodicXv m))
    pphi := fixCorners (ymirror (periodicXphi m)) }

/-- The Walled variant's hard zero on the along-x velocity:
`u[0] = u[1] = u[-1] = u[-2] = 0`. -/
def walledXu (m : SW nx ny) : Mat (nx + 3) (ny + 2) :=
  let u0 := setXcol m.pu 0 fun _ => 0
  let u1 := setXcol u0 1 fun _ => 0
  let u2 := setXcol u1 (nx + 2) fun _ => 0
  setXcol u2 (nx + 1) fun _ => 0

/-- The Walled zero-gradient x-boundary of the transverse velocity:
`v[0] = v[1]; v[-1] = v[-2]`. -/
def walledXv (m : SW nx ny) : Mat (nx + 2) (ny + 3) :=
  let v0 := setXcol m.pv 0 fun j => m.pv ⟨1, by omega⟩ j
  setXcol v0 (nx + 1) fun j => v0 ⟨nx, by omega⟩ j

/-- The Walled zero-gradient x-boundary of the height field:
`phi[0] = phi[1]; phi[-1] = phi[-2]`. -/
def walledXphi (m : SW nx ny) : Mat (nx + 2) (ny + 2) :=
  let p0 := setXcol m.pphi 0 fun j => m.pphi ⟨1, by omega⟩ j
  setXcol p0 (nx + 1) fun j => p0 ⟨nx, by omega⟩ j

/-- `nonlinear.py` `WalledShallowWater._apply_boundary_conditions`
(lines 234-252); `linear.py`'s `WallBoundaries` mixin is modelled from the
spec as the same operation. -/
def walledStateBC (m : SW nx ny) : SW nx ny :=
  { m with
    pu := fixCorners (ymirror (walledXu m))
    pv := fixCorners (ymirror (walledXv m))
    pphi := fixCorners (ymirror (walledXphi m)) }

/-- The Periodic tracer-field x-wrap: `field[0] = field[-2]; field[-1] = field[1]`. -/
def wrapXtracer (f : Mat (nx + 2) (ny + 2)) : Mat (nx + 2) (ny + 2) :=
  let f0 := setXcol f 0 fun j => f ⟨nx, by omega⟩ j
  setXcol f0 (nx + 1) fun j => f0 ⟨1, by omega⟩ j

/-- The Walled tracer-field zero-gradient x-boundary:
`field[0] = field[1]; field[-1] = field[-2]`. -/
def mirrorXtracer (f : Mat (nx + 2) (ny + 2)) : Mat (nx + 2) (ny + 2) :=
  let f0 := setXcol f 0 fun j => f ⟨1, by omega⟩ j
  setXcol f0 (nx + 1) fun j => f0 ⟨nx, by omega⟩ j

/-- `nonlinear.py` `PeriodicShallowWater._apply_boundary_conditions_to`
(lines 218-227): the periodic x-wrap plus y zero-gradient for an auxiliary
(tracer) field. -/
def periodicBCto (f : Mat (nx + 2) (ny + 2)) : Mat (nx + 2) (ny + 2) :=
  fixCorners (ymirror (wrapXtracer f))

/-- `nonlinear.py` `WalledShallowWater._apply_boundary_conditions_to`
(lines 254-263): free-slip zero-gradient on all four boundaries for an
auxiliary (tracer) field. -/
def walledBCto (f : Mat (nx + 2) (ny + 2)) : Mat (nx + 2) (ny + 2) :=
  fixCorners (ymirror (mirrorXtracer f))

/-- The state boundary-condition operation of the selected variant. -/
def applyStateBC : BCVariant → SW nx ny → SW nx ny
  | .periodic, m => periodicStateBC m
  | .walled, m => walledStateBC m

/-- The auxiliary-field boundary-condition operation of the selected variant. -/
def applyBCto : BCVariant → Mat (nx + 2) (ny + 2) → Mat (nx + 2) (ny + 2)
  | .periodic, f => periodicBCto f
  | .walled, f => walledBCto f

/-- Steps one and two of `step()` in both files: apply the state boundary
conditions, then the auxiliary-field operation to every tracer field. -/
def applyAllBC (bcv : BCVariant) (m : SW nx ny) : SW nx ny :=
  let m1 := applyStateBC bcv m
  { m1 with tracers := m1.tracers.map fun p => (p.1, { p.2 with field := applyBCto bcv p.2.field }) }

/-- The outcome of one `step()` call: normal completion, or an exception
escaping mid-step; `exc` carries the model exactly as the raise left it. -/
inductive StepRes (nx ny : ℕ) : Type
  | ok (m : SW nx ny) : StepRes nx ny
  | exc (m : SW nx ny) : StepRes nx ny

/-- Commit `self.state = newstate`: write the triple into the interior of the
padded storage (the state setter of the grid collaborator's unpadded views). -/
def commitState (m : SW nx ny) (s : STrip nx ny) : SW nx ny :=
  { m with
    pu := setInterior m.pu s.1
    pv := setInterior m.pv s.2.1
    pphi := setInterior m.pphi s.2.2 }

/-- `self.t += dt; self.tc += 1`. -/
def advanceClock (m : SW nx ny) : SW nx ny :=
  { m with t := m.t + m.dt, tc := m.tc + 1 }

/-- `nonlinear.py`'s tracer loop (lines 186-187): for each tracer in
registration order, evaluate its tendency against the CURRENT model and
immediately commit `field[1:-1,1:-1] = field[1:-1,1:-1] + next(stepper)`;
a raising tendency aborts the step, leaving the commits made so far. -/
def nlLoop (dyn : Variant) : ℕ → SW nx ny → ℕ → StepRes nx ny
  | 0, mc, _ => .ok mc
  | fuel + 1, mc, k =>
    if h : k < mc.tracers.length then
      let pr := mc.tracers.get ⟨k, h⟩
      match tracerRhs dyn (tracerEnvOf mc) pr.2 with
      | none => .exc mc
      | some f =>
        nlLoop dyn fuel
          { mc with tracers := mc.tracers.set k (pr.1,
            { pr.2 with
              field := setInterior pr.2.field (interior pr.2.field + abInc mc.dt pr.2.hist f)
              hist := histPush pr.2.hist f }) }
          (k + 1)
    else .ok mc

/-- `linear.py`'s tracer loop (lines 193-195): evaluate every tracer tendency
first, stashing `field[1:-1,1:-1] + next(stepper)` into `newfields` without
committing anything (each successful `next` still advances that stepper's
history); a raising tendency aborts with nothing committed. -/
def linLoop (dyn : Variant) : ℕ → SW nx ny → ℕ → List (Mat nx ny) →
    (SW nx ny × List (Mat nx ny)) ⊕ SW nx ny
  | 0, mc, _, acc => .inl (mc, acc)
  | fuel + 1, mc, k, acc =>
    if h : k < mc.tracers.length then
      let pr := mc.tracers.get ⟨k, h⟩
      match tracerRhs dyn (tracerEnvOf mc) pr.2 with
      | none => .inr mc
      | some f =>
        linLoop dyn fuel
          { mc with tracers := mc.tracers.set k (pr.1, { pr.2 with hist := histPush pr.2.hist f }) }
          (k + 1) (acc ++ [interior pr.2.field + abInc mc.dt pr.2.hist f])
    else .inl (mc, acc)

/-- `linear.py`'s commit loop (lines 197-198): write each stashed interior
back into its tracer's field, pairing tracers with `newfields` by position
(python `zip` truncates at the shorter list, as here). -/
def commitFields (m : SW nx ny) (nf : List (Mat nx ny)) : SW nx ny :=
  { m with
    tracers := (m.tracers.zip nf).map fun pv => (pv.1.1, { pv.1.2 with field := setInterior pv.1.2.field pv.2 }) }

/-- `step()` of the selected variant.  Both files: apply boundary conditions
to state and tracers, evaluate the state tendency and form
`newstate = state + next(stepper)` from the post-boundary snapshot, then run
the variant's tracer loop (`nonlin` commits tracers inside the loop;
the `linear.py` variants stash `newfields` and commit after), then commit the
state and advance the clock.  An exception anywhere yields `exc` with the
model as the raise left it. -/
def stepOf (dyn : Variant) (bcv : BCVariant) (m : SW nx ny) : StepRes nx ny :=
  let m2 := applyAllBC bcv m
  match rhsOf dyn m2 with
  | none => .exc m2
  | some f =>
    let newstate := stateTriple m2 + abInc m2.dt m2.stateHist f
    let m3 : SW nx ny := { m2 with stateHist := histPush m2.stateHist f }
    match dyn with
    | .nonlin =>
      match nlLoop dyn m3.tracers.length m3 0 with
      | .exc me => .exc me
      | .ok m4 => .ok (advanceClock (commitState m4 newstate))
    | _ =>
      match linLoop dyn m3.tracers.length m3 0 [] with
      | .inr me => .exc me
      | .inl (m4, nf) => .ok (advanceClock (commitState (commitFields m4 nf) newstate))

/-- `n` consecutive `step()` calls; an exception stops the run. -/
def steps (dyn : Variant) (bcv : BCVariant) : ℕ → SW nx ny → StepRes nx ny
  | 0, m => .ok m
  | n + 1, m =>
    match steps dyn bcv n m with
    | .ok m' => stepOf dyn bcv m'
    | .exc e => .exc e

/-- Zero-initialize a padded field and write `initial_state` into its
interior: `state = np.zeros_like(self._phi); state[1:-1,1:-1] = initial_state`. -/
def padField (init : Mat nx ny) : Mat (nx + 2) (ny + 2) :=
  setInterior (fun _ _ => 0) init

/-- A freshly registered tracer: padded field holding `init`, the given
options, and a new integrator with empty history. -/
def mkTracer (init : Mat nx ny) (userRhs : ModelView nx ny → Option (Mat nx ny))
    (kappa : ℚ) (applyDamping : Bool) : Tracer nx ny :=
  ⟨padField init, kappa, applyDamping, userRhs, []⟩

/-- Python dict assignment `self._tracers[name] = value`: replace in place if
the key exists (keeping its position), else append. -/
def upsertTracer : List (String × Tracer nx ny) → String → Tracer nx ny →
    List (String × Tracer nx ny)
  | [], nm, tr => [(nm, tr)]
  | p :: rest, nm, tr =>
    if p.1 = nm then (p.1, tr) :: rest else p :: upsertTracer rest nm tr

/-- `add_tracer(name, initial_state, rhs, kappa, apply_damping)` of both
files: build the padded field and a fresh integrator and store them under
`name` (a plain dict write — no duplicate check). -/
def add_tracer (m : SW nx ny) (nm : String) (init : Mat nx ny)
    (userRhs : ModelView nx ny → Option (Mat nx ny)) (kappa : ℚ)
    (applyDamping : Bool) : SW nx ny :=
  { m with tracers := upsertTracer m.tracers nm (mkTracer init userRhs kappa applyDamping) }

/-- Dict lookup in the tracer registry (first matching key). -/
def lookupTracer : List (String × Tracer nx ny) → String → Option (Tracer nx ny)
  | [], _ => none
  | p :: rest, nm => if p.1 = nm then some p.2 else lookupTracer rest nm

/-- `tracer(name)`: the registered tracer's interior (unpadded) values;
`none` models the `KeyError` on an unknown name. -/
def tracer (m : SW nx ny) (nm : String) : Option (Mat nx ny) :=
  (lookupTracer m.tracers nm).map fun tr => interior tr.field

/-- The constructor shared by both files: stores the parameters, zero
grid storage (modelled from the spec: the grid collaborator owns
zero-initialized padded fields and the coordinate arrays `uy`, `vy`),
`sponge_ny = ny // 7`, the sponge profile (its values, irrational in the
source, are taken as data), empty tracer/forcing registries, and a fresh
integrator; no argument is validated. -/
def swMk (nx ny : ℕ) (Lx Ly f0 beta nu nuPhi r g H dt : ℚ) (sponge : ℕ → ℚ) :
    SW nx ny :=
  { f0 := f0, beta := beta, nu := nu, nuPhi := nuPhi, r := r, g := g, H := H
    dt := dt, dx := Lx / nx, dy := Ly / ny
    uy := fun j => -(Ly / 2) + ((j.val : ℚ) + 1 / 2) * (Ly / ny)
    vy := fun j => -(Ly / 2) + (j.val : ℚ) * (Ly / ny)
    spongeNY := ny / 7, sponge := sponge
    pu := fun _ _ => 0, pv := fun _ _ => 0, pphi := fun _ _ => 0
    tracers := [], forcings := [], stateHist := [], t := 0, tc := 0 }


lemma interior_padField (v : Mat nx ny) : interior (padField v) = v := by
  funext i j
  have hi := i.isLt
  have hj := j.isLt
  simp only [interior, padField, setInterior]
  rw [dif_pos (by omega)]
  rfl

lemma padField_border (v : Mat nx ny) (i : Fin (nx + 2)) (j : Fin (ny + 2))
    (h : i.val = 0 ∨ i.val = nx + 1 ∨ j.val = 0 ∨ j.val = ny + 1) :
    padField v i j = 0 := by
  simp only [padField, setInterior]
  have hi := i.isLt
  have hj := j.isLt
  rw [dif_neg (by omega)]

lemma lookup_upsert_self (l : List (String × Tracer nx ny)) (nm : String)
    (tr : Tracer nx ny) :
    lookupTracer (upsertTracer l nm tr) nm = some tr := by
  induction l with
  | nil => simp [upsertTracer, lookupTracer]
  | cons p rest ih =>
    by_cases h : p.1 = nm
    · simp [upsertTracer, lookupTracer, h]
    · simp [upsertTracer, lookupTracer, h, ih]

lemma lookup_upsert_other (l : List (String × Tracer nx ny)) (nm nm' : String)
    (tr : Tracer nx ny) (h : nm' ≠ nm) :
    lookupTracer (upsertTracer l nm tr) nm' = lookupTracer l nm' := by
  induction l with
  | nil => simp [upsertTracer, lookupTracer, if_neg (Ne.symm h)]
  | cons p rest ih =>
    by_cases hp : p.1 = nm
    · simp only [upsertTracer, if_pos hp, lookupTracer]
      rw [hp, if_neg (Ne.symm h), if_neg (Ne.symm h)]
    · simp only [upsertTracer, if_pos, if_neg hp, lookupTracer]
      split <;> simp [ih]

lemma upsert_length_of_mem (l : List (String × Tracer nx ny)) (nm : String)
    (tr : Tracer nx ny) (h : (lookupTracer l nm).isSome) :
    (upsertTracer l nm tr).length = l.length := by
  induction l with
  | nil => simp [lookupTracer] at h
  | cons p rest ih =>
    by_cases hp : p.1 = nm
    · simp [upsertTracer, hp]
    · simp only [lookupTracer, if_neg hp] at h
      simp [upsertTracer, hp, ih h]


/-- C1: for every registered tracer the advective part of the tendency must be
minus the flux divergence ∇·(uq) = diffx(q_at_u·u) + diffy(q_at_v·v) derived
from ∂q/∂t + ∇·(uq) = 0.  `linear.py`'s `_tracer_dynamics_terms` equals that
flux divergence for every input, but `nonlinear.py`'s `tracer_conservation`
combines the two directional flux terms with a minus sign, contradicting its
own docstring (which says it returns ∇·(uq)): at the concrete failing input
below (zero u, unit v, tracer increasing in y) it differs from the flux
divergence. -/
theorem C1_tracer_advection_flux_divergence :
    (∀ (nx ny : ℕ) (dx dy : ℚ) (u : Mat (nx + 1) ny) (v : Mat nx (ny + 1))
      (q : Mat (nx + 2) (ny + 2)),
        tracer_dynamics_terms dx dy u v q = fluxDivergenceUQ dx dy u v q) ∧
    tracer_conservation 1 1 c1u c1v c1q 0 0 ≠ fluxDivergenceUQ 1 1 c1u c1v c1q 0 0 := by
  refine ⟨fun _ _ _ _ _ _ _ => rfl, ?_⟩
  norm_num [tracer_conservation, fluxDivergenceUQ, diffx, diffy, x_average, y_average,
    trimx, trimy, c1u, c1v, c1q, Fin.succ, Fin.castSucc, Fin.castAdd, Fin.castLE]

/-- C10: registering a fresh tracer writes the initial values into exactly the
interior of a zero-initialized padded field, and an immediate read returns
exactly those values (the interior view only; the padded border is invisible
and zero). -/
theorem C10_register_then_read (m : SW nx ny) (nm : String) (init : Mat nx ny)
    (userRhs : ModelView nx ny → Option (Mat nx ny)) (kappa : ℚ) (damp : Bool)
    (hfresh : lookupTracer m.tracers nm = none) :
    tracer (add_tracer m nm init userRhs kappa damp) nm = some init ∧
    interior (padField init) = init ∧
    ∀ (i : Fin (nx + 2)) (j : Fin (ny + 2)),
      i.val = 0 ∨ i.val = nx + 1 ∨ j.val = 0 ∨ j.val = ny + 1 →
        padField init i j = 0 := by
  refine ⟨?_, interior_padField init, fun i j h => padField_border init i j h⟩
  simp [tracer, add_tracer, lookup_upsert_self, mkTracer, interior_padField]

/-- A small concrete model (`nx = 2`, `ny = 1`) used as witness base. -/
def c10base : SW 2 1 := swMk 2 1 10 10 0 0 1 1 1 1 1 1000 fun _ => 0

/-- The tracer name used in the concrete registrations. -/
def qNm : String := "q"

/-- Concrete interior values for the C10 witness. -/
def c10v : Mat 2 1 := fun i _ => (i.val : ℚ) + 5

/-- C10 witness: the theorem applied to a concrete fresh registration. -/
theorem C10_register_then_read_witness :
    tracer (add_tracer c10base qNm c10v (fun _ => some 0) 0 true) qNm = some c10v :=
  (C10_register_then_read c10base qNm c10v (fun _ => some 0) 0 true rfl).1

/-- Initial values of the first registration of `q`. -/
def c7v1 : Mat 2 1 := fun _ _ => 1

/-- Values passed to the duplicate registration of `q`. -/
def c7v2 : Mat 2 1 := fun _ _ => 2

/-- Model with tracer `q` registered once. -/
def c7m0 : SW 2 1 := add_tracer c10base qNm c7v1 (fun _ => some 0) 0 true

/-- The same model after registering `q` a second time. -/
def c7m1 : SW 2 1 := add_tracer c7m0 qNm c7v2 (fun _ => some 0) 0 true

/-- C7 counterexample: calling `add_tracer` again under the registered name
`q` raises no error and silently replaces the stored tracer — afterwards the
read returns the new values, not the preserved old ones the claim requires. -/
theorem C7_counterexample :
    tracer c7m1 qNm = some c7v2 ∧ tracer c7m0 qNm = some c7v1 ∧ c7v2 ≠ c7v1 := by
  refine ⟨?_, ?_, ?_⟩
  · simp [c7m1, c7m0, add_tracer, tracer, lookup_upsert_self, mkTracer, interior_padField]
  · simp [c7m0, add_tracer, tracer, lookup_upsert_self, mkTracer, interior_padField]
  · intro h
    have h0 := congrFun (congrFun h 0) 0
    norm_num [c7v1, c7v2] at h0

/-- C7 amended: re-registering an existing tracer name is not rejected — the
dict write silently replaces that tracer's field and integrator in place
(fresh padded field, empty history), keeps the registry size and order, and
leaves every other tracer unchanged. -/
theorem C7_amended_silent_replace (m : SW nx ny) (nm : String) (init : Mat nx ny)
    (userRhs : ModelView nx ny → Option (Mat nx ny)) (kappa : ℚ) (damp : Bool)
    (hdup : (lookupTracer m.tracers nm).isSome) :
    (add_tracer m nm init userRhs kappa damp).tracers.length = m.tracers.length ∧
    lookupTracer (add_tracer m nm init userRhs kappa damp).tracers nm
      = some (mkTracer init userRhs kappa damp) ∧
    ∀ nm', nm' ≠ nm →
      lookupTracer (add_tracer m nm init userRhs kappa damp).tracers nm'
        = lookupTracer m.tracers nm' :=
  ⟨upsert_length_of_mem m.tracers nm _ hdup, lookup_upsert_self m.tracers nm _,
    fun _ h => lookup_upsert_other m.tracers nm _ _ h⟩

/-- C7 amended witness: the duplicate registration above keeps registry size 1. -/
theorem C7_amended_silent_replace_witness : c7m1.tracers.length = c7m0.tracers.length :=
  (C7_amended_silent_replace c7m0 qNm c7v2 (fun _ => some 0) 0 true
    (by simp [c7m0, add_tracer, lookup_upsert_self])).1


lemma fm_row0 {a b : ℕ} (X : Mat (a + 2) (b + 2)) (hb : 1 ≤ b) (i : Fin (a + 2))
    (j : Fin (b + 2)) (hj : j.val = 0) :
    fixCorners (ymirror X) i j = X i ⟨1, by omega⟩ := by
  simp only [fixCorners, ymirror, setYrow, setXcol, Fin.val_mk]
  split_ifs <;> first | rfl | contradiction | omega

lemma fm_rowlast {a b : ℕ} (X : Mat (a + 2) (b + 2)) (hb : 1 ≤ b) (i : Fin (a + 2))
    (j : Fin (b + 2)) (hj : j.val = b + 1) :
    fixCorners (ymirror X) i j = X i ⟨b, by omega⟩ := by
  simp only [fixCorners, ymirror, setYrow, setXcol, Fin.val_mk]
  split_ifs <;> first | rfl | contradiction | omega

lemma fm_mid {a b : ℕ} (X : Mat (a + 2) (b + 2)) (i : Fin (a + 2))
    (j : Fin (b + 2)) (h0 : j.val ≠ 0) (h1 : j.val ≠ b + 1) :
    fixCorners (ymirror X) i j = X i j := by
  simp only [fixCorners, ymirror, setYrow, setXcol, Fin.val_mk]
  split_ifs <;> first | rfl | contradiction | omega

lemma periodicXu_col0 (m : SW nx ny) (i : Fin (nx + 3)) (j : Fin (ny + 2))
    (hi : i.val = 0) : periodicXu m i j = m.pu ⟨nx, by omega⟩ j := by
  simp only [periodicXu, setXcol, Fin.val_mk]
  split_ifs <;> first | rfl | contradiction | omega

lemma periodicXu_col1 (m : SW nx ny) (i : Fin (nx + 3)) (j : Fin (ny + 2))
    (hi : i.val = 1) : periodicXu m i j = m.pu ⟨nx + 1, by omega⟩ j := by
  simp only [periodicXu, setXcol, Fin.val_mk]
  split_ifs <;> first | rfl | contradiction | omega

lemma periodicXu_collast (m : SW nx ny) (i : Fin (nx + 3)) (j : Fin (ny + 2))
    (hx : 2 ≤ nx) (hi : i.val = nx + 2) : periodicXu m i j = m.pu ⟨2, by omega⟩ j := by
  simp only [periodicXu, setXcol, Fin.val_mk]
  split_ifs <;> first | rfl | contradiction | omega

lemma periodicXu_mid (m : SW nx ny) (i : Fin (nx + 3)) (j : Fin (ny + 2))
    (h0 : i.val ≠ 0) (h1 : i.val ≠ 1) (h2 : i.val ≠ nx + 2) :
    periodicXu m i j = m.pu i j := by
  simp only [periodicXu, setXcol, Fin.val_mk]
  split_ifs <;> first | rfl | contradiction | omega



lemma periodicXv_col0 (m : SW nx ny) (i : Fin (nx + 2)) (j : Fin (ny + 3))
    (hi : i.val = 0) : periodicXv m i j = m.pv ⟨nx, by omega⟩ j := by
  simp only [periodicXv, setXcol, Fin.val_mk]
  split_ifs <;> first | rfl | contradiction | omega

lemma periodicXv_collast (m : SW nx ny) (i : Fin (nx + 2)) (j : Fin (ny + 3))
    (hi : i.val = nx + 1) : periodicXv m i j = m.pv ⟨1, by omega⟩ j := by
  simp only [periodicXv, setXcol, Fin.val_mk]
  split_ifs <;> first | rfl | contradiction | omega

lemma periodicXv_mid (m : SW nx ny) (i : Fin (nx + 2)) (j : Fin (ny + 3))
    (h0 : i.val ≠ 0) (h1 : i.val ≠ nx + 1) : periodicXv m i j = m.pv i j := by
  simp only [periodicXv, setXcol, Fin.val_mk]
  split_ifs <;> first | rfl | contradiction | omega

lemma periodicXphi_col0 (m : SW nx ny) (i : Fin (nx + 2)) (j : Fin (ny + 2))
    (hi : i.val = 0) : periodicXphi m i j = m.pphi ⟨nx, by omega⟩ j := by
  simp only [periodicXphi, setXcol, Fin.val_mk]
  split_ifs <;> first | rfl | contradiction | omega

lemma periodicXphi_collast (m : SW nx ny) (i : Fin (nx + 2)) (j : Fin (ny + 2))
    (hi : i.val = nx + 1) : periodicXphi m i j = m.pphi ⟨1, by omega⟩ j := by
  simp only [periodicXphi, setXcol, Fin.val_mk]
  split_ifs <;> first | rfl | contradiction | omega

lemma periodicXphi_mid (m : SW nx ny) (i : Fin (nx + 2)) (j : Fin (ny + 2))
    (h0 : i.val ≠ 0) (h1 : i.val ≠ nx + 1) : periodicXphi m i j = m.pphi i j := by
  simp only [periodicXphi, setXcol, Fin.val_mk]
  split_ifs <;> first | rfl | contradiction | omega

lemma walledXu_zero (m : SW nx ny) (i : Fin (nx + 3)) (j : Fin (ny + 2))
    (hi : i.val = 0 ∨ i.val = 1 ∨ i.val = nx + 1 ∨ i.val = nx + 2) :
    walledXu m i j = 0 := by
  simp only [walledXu, setXcol, Fin.val_mk]
  split_ifs <;> first | rfl | contradiction | omega

lemma walledXu_mid (m : SW nx ny) (i : Fin (nx + 3)) (j : Fin (ny + 2))
    (h0 : i.val ≠ 0) (h1 : i.val ≠ 1) (h2 : i.val ≠ nx + 1) (h3 : i.val ≠ nx + 2) :
    walledXu m i j = m.pu i j := by
  simp only [walledXu, setXcol, Fin.val_mk]
  split_ifs <;> first | rfl | contradiction | omega

lemma walledXv_col0 (m : SW nx ny) (i : Fin (nx + 2)) (j : Fin (ny + 3))
    (hi : i.val = 0) : walledXv m i j = m.pv ⟨1, by omega⟩ j := by
  simp only [walledXv, setXcol, Fin.val_mk]
  split_ifs <;> first | rfl | contradiction | omega

lemma walledXv_collast (m : SW nx ny) (i : Fin (nx + 2)) (j : Fin (ny + 3))
    (hx : 1 ≤ nx) (hi : i.val = nx + 1) : walledXv m i j = m.pv ⟨nx, by omega⟩ j := by
  simp only [walledXv, setXcol, Fin.val_mk]
  split_ifs <;> first | rfl | contradiction | omega

lemma walledXv_mid (m : SW nx ny) (i : Fin (nx + 2)) (j : Fin (ny + 3))
    (h0 : i.val ≠ 0) (h1 : i.val ≠ nx + 1) : walledXv m i j = m.pv i j := by
  simp only [walledXv, setXcol, Fin.val_mk]
  split_ifs <;> first | rfl | contradiction | omega

lemma walledXphi_col0 (m : SW nx ny) (i : Fin (nx + 2)) (j : Fin (ny + 2))
    (hi : i.val = 0) : walledXphi m i j = m.pphi ⟨1, by omega⟩ j := by
  simp only [walledXphi, setXcol, Fin.val_mk]
  split_ifs <;> first | rfl | contradiction | omega

lemma walledXphi_collast (m : SW nx ny) (i : Fin (nx + 2)) (j : Fin (ny + 2))
    (hx : 1 ≤ nx) (hi : i.val = nx + 1) : walledXphi m i j = m.pphi ⟨nx, by omega⟩ j := by
  simp only [walledXphi, setXcol, Fin.val_mk]
  split_ifs <;> first | rfl | contradiction | omega

lemma walledXphi_mid (m : SW nx ny) (i : Fin (nx + 2)) (j : Fin (ny + 2))
    (h0 : i.val ≠ 0) (h1 : i.val ≠ nx + 1) : walledXphi m i j = m.pphi i j := by
  simp only [walledXphi, setXcol, Fin.val_mk]
  split_ifs <;> first | rfl | contradiction | omega

lemma wrapXtracer_col0 (f : Mat (nx + 2) (ny + 2)) (i : Fin (nx + 2)) (j : Fin (ny + 2))
    (hi : i.val = 0) : wrapXtracer f i j = f ⟨nx, by omega⟩ j := by
  simp only [wrapXtracer, setXcol, Fin.val_mk]
  split_ifs <;> first | rfl | contradiction | omega

lemma wrapXtracer_collast (f : Mat (nx + 2) (ny + 2)) (i : Fin (nx + 2)) (j : Fin (ny + 2))
    (hi : i.val = nx + 1) : wrapXtracer f i j = f ⟨1, by omega⟩ j := by
  simp only [wrapXtracer, setXcol, Fin.val_mk]
  split_ifs <;> first | rfl | contradiction | omega

lemma wrapXtracer_mid (f : Mat (nx + 2) (ny + 2)) (i : Fin (nx + 2)) (j : Fin (ny + 2))
    (h0 : i.val ≠ 0) (h1 : i.val ≠ nx + 1) : wrapXtracer f i j = f i j := by
  simp only [wrapXtracer, setXcol, Fin.val_mk]
  split_ifs <;> first | rfl | contradiction | omega

lemma mirrorXtracer_col0 (f : Mat (nx + 2) (ny + 2)) (i : Fin (nx + 2)) (j : Fin (ny + 2))
    (hi : i.val = 0) : mirrorXtracer f i j = f ⟨1, by omega⟩ j := by
  simp only [mirrorXtracer, setXcol, Fin.val_mk]
  split_ifs <;> first | rfl | contradiction | omega

lemma mirrorXtracer_collast (f : Mat (nx + 2) (ny + 2)) (i : Fin (nx + 2)) (j : Fin (ny + 2))
    (hx : 1 ≤ nx) (hi : i.val = nx + 1) : mirrorXtracer f i j = f ⟨nx, by omega⟩ j := by
  simp only [mirrorXtracer, setXcol, Fin.val_mk]
  split_ifs <;> first | rfl | contradiction | omega

lemma mirrorXtracer_mid (f : Mat (nx + 2) (ny + 2)) (i : Fin (nx + 2)) (j : Fin (ny + 2))
    (h0 : i.val ≠ 0) (h1 : i.val ≠ nx + 1) : mirrorXtracer f i j = f i j := by
  simp only [mirrorXtracer, setXcol, Fin.val_mk]
  split_ifs <;> first | rfl | contradiction | omega



lemma fm_coleq {a b : ℕ} (X : Mat (a + 2) (b + 2)) (hb : 1 ≤ b) (i1 i2 : Fin (a + 2))
    (H : ∀ j, X i1 j = X i2 j) (j : Fin (b + 2)) :
    fixCorners (ymirror X) i1 j = fixCorners (ymirror X) i2 j := by
  by_cases h0 : j.val = 0
  · rw [fm_row0 X hb i1 j h0, fm_row0 X hb i2 j h0]; exact H _
  · by_cases h1 : j.val = b + 1
    · rw [fm_rowlast X hb i1 j h1, fm_rowlast X hb i2 j h1]; exact H _
    · rw [fm_mid X i1 j h0 h1, fm_mid X i2 j h0 h1]; exact H _

lemma fm_colzero {a b : ℕ} (X : Mat (a + 2) (b + 2)) (hb : 1 ≤ b) (i : Fin (a + 2))
    (H : ∀ j, X i j = 0) (j : Fin (b + 2)) :
    fixCorners (ymirror X) i j = 0 := by
  by_cases h0 : j.val = 0
  · rw [fm_row0 X hb i j h0]; exact H _
  · by_cases h1 : j.val = b + 1
    · rw [fm_rowlast X hb i j h1]; exact H _
    · rw [fm_mid X i j h0 h1]; exact H _

lemma fm_row0eq {a b : ℕ} (X : Mat (a + 2) (b + 2)) (hb : 1 ≤ b) (i : Fin (a + 2)) :
    fixCorners (ymirror X) i ⟨0, by omega⟩ = fixCorners (ymirror X) i ⟨1, by omega⟩ := by
  rw [fm_row0 X hb i _ rfl, fm_mid X i _ (by simp) (by simp only [Fin.val_mk]; omega)]

lemma fm_rowlasteq {a b : ℕ} (X : Mat (a + 2) (b + 2)) (hb : 1 ≤ b) (i : Fin (a + 2)) :
    fixCorners (ymirror X) i ⟨b + 1, by omega⟩ = fixCorners (ymirror X) i ⟨b, by omega⟩ := by
  rw [fm_rowlast X hb i _ rfl, fm_mid X i _ (by simp only [Fin.val_mk]; omega) (by simp only [Fin.val_mk]; omega)]


/-- C3: after the Periodic state boundary operation, the wrapped x-boundary
columns of each state field exactly equal their interior source columns (with
the staggering offset for the along-x velocity: columns 0, 1, -1 equal
columns -3, -2, 2), and the y-boundary rows equal their adjacent interior
rows, on any grid with at least two interior columns and one interior row. -/
theorem C3_periodic_state_bc (m : SW nx ny) (hx : 2 ≤ nx) (hy : 1 ≤ ny) :
    (∀ j, (periodicStateBC m).pu ⟨0, by omega⟩ j = (periodicStateBC m).pu ⟨nx, by omega⟩ j) ∧
    (∀ j, (periodicStateBC m).pu ⟨1, by omega⟩ j = (periodicStateBC m).pu ⟨nx + 1, by omega⟩ j) ∧
    (∀ j, (periodicStateBC m).pu ⟨nx + 2, by omega⟩ j = (periodicStateBC m).pu ⟨2, by omega⟩ j) ∧
    (∀ j, (periodicStateBC m).pv ⟨0, by omega⟩ j = (periodicStateBC m).pv ⟨nx, by omega⟩ j) ∧
    (∀ j, (periodicStateBC m).pv ⟨nx + 1, by omega⟩ j = (periodicStateBC m).pv ⟨1, by omega⟩ j) ∧
    (∀ j, (periodicStateBC m).pphi ⟨0, by omega⟩ j = (periodicStateBC m).pphi ⟨nx, by omega⟩ j) ∧
    (∀ j, (periodicStateBC m).pphi ⟨nx + 1, by omega⟩ j = (periodicStateBC m).pphi ⟨1, by omega⟩ j) ∧
    (∀ i, (periodicStateBC m).pu i ⟨0, by omega⟩ = (periodicStateBC m).pu i ⟨1, by omega⟩ ∧
      (periodicStateBC m).pu i ⟨ny + 1, by omega⟩ = (periodicStateBC m).pu i ⟨ny, by omega⟩) ∧
    (∀ i, (periodicStateBC m).pv i ⟨0, by omega⟩ = (periodicStateBC m).pv i ⟨1, by omega⟩ ∧
      (periodicStateBC m).pv i ⟨ny + 2, by omega⟩ = (periodicStateBC m).pv i ⟨ny + 1, by omega⟩) ∧
    (∀ i, (periodicStateBC m).pphi i ⟨0, by omega⟩ = (periodicStateBC m).pphi i ⟨1, by omega⟩ ∧
      (periodicStateBC m).pphi i ⟨ny + 1, by omega⟩ = (periodicStateBC m).pphi i ⟨ny, by omega⟩) := by
  simp only [periodicStateBC]
  refine ⟨fun j => fm_coleq _ hy _ _ (fun j' => ?_) j,
    fun j => fm_coleq _ hy _ _ (fun j' => ?_) j,
    fun j => fm_coleq _ hy _ _ (fun j' => ?_) j,
    fun j => fm_coleq _ (by first | omega | (simp only [Fin.val_mk]; omega) | (simp only [Fin.val_mk]; norm_num)) _ _ (fun j' => ?_) j,
    fun j => fm_coleq _ (by first | omega | (simp only [Fin.val_mk]; omega) | (simp only [Fin.val_mk]; norm_num)) _ _ (fun j' => ?_) j,
    fun j => fm_coleq _ hy _ _ (fun j' => ?_) j,
    fun j => fm_coleq _ hy _ _ (fun j' => ?_) j,
    fun i => ⟨fm_row0eq _ hy i, fm_rowlasteq _ hy i⟩,
    fun i => ⟨fm_row0eq _ (by first | omega | (simp only [Fin.val_mk]; omega) | (simp only [Fin.val_mk]; norm_num)) i, fm_rowlasteq _ (by first | omega | (simp only [Fin.val_mk]; omega) | (simp only [Fin.val_mk]; norm_num)) i⟩,
    fun i => ⟨fm_row0eq _ hy i, fm_rowlasteq _ hy i⟩⟩
  · rw [periodicXu_col0 m _ _ rfl, periodicXu_mid m _ _ (by first | omega | (simp only [Fin.val_mk]; omega) | (simp only [Fin.val_mk]; norm_num)) (by first | omega | (simp only [Fin.val_mk]; omega) | (simp only [Fin.val_mk]; norm_num)) (by first | omega | (simp only [Fin.val_mk]; omega) | (simp only [Fin.val_mk]; norm_num))]
  · rw [periodicXu_col1 m _ _ rfl, periodicXu_mid m _ _ (by first | omega | (simp only [Fin.val_mk]; omega) | (simp only [Fin.val_mk]; norm_num)) (by first | omega | (simp only [Fin.val_mk]; omega) | (simp only [Fin.val_mk]; norm_num)) (by first | omega | (simp only [Fin.val_mk]; omega) | (simp only [Fin.val_mk]; norm_num))]
  · rw [periodicXu_collast m _ _ hx rfl, periodicXu_mid m _ _ (by first | omega | (simp only [Fin.val_mk]; omega) | (simp only [Fin.val_mk]; norm_num)) (by first | omega | (simp only [Fin.val_mk]; omega) | (simp only [Fin.val_mk]; norm_num)) (by first | omega | (simp only [Fin.val_mk]; omega) | (simp only [Fin.val_mk]; norm_num))]
  · rw [periodicXv_col0 m _ _ rfl, periodicXv_mid m _ _ (by first | omega | (simp only [Fin.val_mk]; omega) | (simp only [Fin.val_mk]; norm_num)) (by first | omega | (simp only [Fin.val_mk]; omega) | (simp only [Fin.val_mk]; norm_num))]
  · rw [periodicXv_collast m _ _ rfl, periodicXv_mid m _ _ (by first | omega | (simp only [Fin.val_mk]; omega) | (simp only [Fin.val_mk]; norm_num)) (by first | omega | (simp only [Fin.val_mk]; omega) | (simp only [Fin.val_mk]; norm_num))]
  · rw [periodicXphi_col0 m _ _ rfl, periodicXphi_mid m _ _ (by first | omega | (simp only [Fin.val_mk]; omega) | (simp only [Fin.val_mk]; norm_num)) (by first | omega | (simp only [Fin.val_mk]; omega) | (simp only [Fin.val_mk]; norm_num))]
  · rw [periodicXphi_collast m _ _ rfl, periodicXphi_mid m _ _ (by first | omega | (simp only [Fin.val_mk]; omega) | (simp only [Fin.val_mk]; norm_num)) (by first | omega | (simp only [Fin.val_mk]; omega) | (simp only [Fin.val_mk]; norm_num))]

/-- A concrete model with distinct field values for the C3 witness. -/
def cbcm : SW 4 2 :=
  { swMk 4 2 10 10 0 0 1 1 1 1 1 1000 (fun _ => 0) with
    pu := fun i j => (i.val : ℚ) * 10 + j.val
    pv := fun i j => (i.val : ℚ) * 100 + 2 * j.val
    pphi := fun i j => (i.val : ℚ) * 7 + 3 * j.val }

/-- C3 witness: one of the wrap equalities evaluated on the concrete model. -/
theorem C3_periodic_state_bc_witness :
    (periodicStateBC cbcm).pu ⟨0, by omega⟩ ⟨0, by omega⟩
      = (periodicStateBC cbcm).pu ⟨4, by omega⟩ ⟨0, by omega⟩ :=
  (C3_periodic_state_bc cbcm (by norm_num) (by norm_num)).1 ⟨0, by omega⟩

/-- C4: after the Walled state boundary operation, the along-x velocity is
exactly zero on the two columns at each x-wall, the transverse velocity and
height satisfy the zero-gradient mirror at both x-boundaries, and all three
fields satisfy the mirror relation at both y-boundaries. -/
theorem C4_walled_state_bc (m : SW nx ny) (hx : 2 ≤ nx) (hy : 1 ≤ ny) :
    (∀ j, (walledStateBC m).pu ⟨0, by omega⟩ j = 0 ∧
      (walledStateBC m).pu ⟨1, by omega⟩ j = 0 ∧
      (walledStateBC m).pu ⟨nx + 1, by omega⟩ j = 0 ∧
      (walledStateBC m).pu ⟨nx + 2, by omega⟩ j = 0) ∧
    (∀ j, (walledStateBC m).pv ⟨0, by omega⟩ j = (walledStateBC m).pv ⟨1, by omega⟩ j ∧
      (walledStateBC m).pv ⟨nx + 1, by omega⟩ j = (walledStateBC m).pv ⟨nx, by omega⟩ j) ∧
    (∀ j, (walledStateBC m).pphi ⟨0, by omega⟩ j = (walledStateBC m).pphi ⟨1, by omega⟩ j ∧
      (walledStateBC m).pphi ⟨nx + 1, by omega⟩ j = (walledStateBC m).pphi ⟨nx, by omega⟩ j) ∧
    (∀ i, (walledStateBC m).pu i ⟨0, by omega⟩ = (walledStateBC m).pu i ⟨1, by omega⟩ ∧
      (walledStateBC m).pu i ⟨ny + 1, by omega⟩ = (walledStateBC m).pu i ⟨ny, by omega⟩) ∧
    (∀ i, (walledStateBC m).pv i ⟨0, by omega⟩ = (walledStateBC m).pv i ⟨1, by omega⟩ ∧
      (walledStateBC m).pv i ⟨ny + 2, by omega⟩ = (walledStateBC m).pv i ⟨ny + 1, by omega⟩) ∧
    (∀ i, (walledStateBC m).pphi i ⟨0, by omega⟩ = (walledStateBC m).pphi i ⟨1, by omega⟩ ∧
      (walledStateBC m).pphi i ⟨ny + 1, by omega⟩ = (walledStateBC m).pphi i ⟨ny, by omega⟩) := by
  simp only [walledStateBC]
  refine ⟨fun j => ⟨fm_colzero _ hy _ (fun j' => ?_) j, fm_colzero _ hy _ (fun j' => ?_) j,
      fm_colzero _ hy _ (fun j' => ?_) j, fm_colzero _ hy _ (fun j' => ?_) j⟩,
    fun j => ⟨fm_coleq _ (by first | omega | (simp only [Fin.val_mk]; omega) | (simp only [Fin.val_mk]; norm_num)) _ _ (fun j' => ?_) j, fm_coleq _ (by first | omega | (simp only [Fin.val_mk]; omega) | (simp only [Fin.val_mk]; norm_num)) _ _ (fun j' => ?_) j⟩,
    fun j => ⟨fm_coleq _ hy _ _ (fun j' => ?_) j, fm_coleq _ hy _ _ (fun j' => ?_) j⟩,
    fun i => ⟨fm_row0eq _ hy i, fm_rowlasteq _ hy i⟩,
    fun i => ⟨fm_row0eq _ (by first | omega | (simp only [Fin.val_mk]; omega) | (simp only [Fin.val_mk]; norm_num)) i, fm_rowlasteq _ (by first | omega | (simp only [Fin.val_mk]; omega) | (simp only [Fin.val_mk]; norm_num)) i⟩,
    fun i => ⟨fm_row0eq _ hy i, fm_rowlasteq _ hy i⟩⟩
  · exact walledXu_zero m _ _ (by first | omega | (simp only [Fin.val_mk]; omega) | (simp only [Fin.val_mk]; norm_num))
  · exact walledXu_zero m _ _ (by first | omega | (simp only [Fin.val_mk]; omega) | (simp only [Fin.val_mk]; norm_num))
  · exact walledXu_zero m _ _ (by first | omega | (simp only [Fin.val_mk]; omega) | (simp only [Fin.val_mk]; norm_num))
  · exact walledXu_zero m _ _ (by first | omega | (simp only [Fin.val_mk]; omega) | (simp only [Fin.val_mk]; norm_num))
  · rw [walledXv_col0 m _ _ rfl, walledXv_mid m _ _ (by first | omega | (simp only [Fin.val_mk]; omega) | (simp only [Fin.val_mk]; norm_num)) (by first | omega | (simp only [Fin.val_mk]; omega) | (simp only [Fin.val_mk]; norm_num))]
  · rw [walledXv_collast m _ _ (by first | omega | (simp only [Fin.val_mk]; omega) | (simp only [Fin.val_mk]; norm_num)) rfl, walledXv_mid m _ _ (by first | omega | (simp only [Fin.val_mk]; omega) | (simp only [Fin.val_mk]; norm_num)) (by first | omega | (simp only [Fin.val_mk]; omega) | (simp only [Fin.val_mk]; norm_num))]
  · rw [walledXphi_col0 m _ _ rfl, walledXphi_mid m _ _ (by first | omega | (simp only [Fin.val_mk]; omega) | (simp only [Fin.val_mk]; norm_num)) (by first | omega | (simp only [Fin.val_mk]; omega) | (simp only [Fin.val_mk]; norm_num))]
  · rw [walledXphi_collast m _ _ (by first | omega | (simp only [Fin.val_mk]; omega) | (simp only [Fin.val_mk]; norm_num)) rfl, walledXphi_mid m _ _ (by first | omega | (simp only [Fin.val_mk]; omega) | (simp only [Fin.val_mk]; norm_num)) (by first | omega | (simp only [Fin.val_mk]; omega) | (simp only [Fin.val_mk]; norm_num))]

/-- C4 witness: the hard-zero columns evaluated on the concrete model. -/
theorem C4_walled_state_bc_witness :
    (walledStateBC cbcm).pu ⟨0, by omega⟩ ⟨0, by omega⟩ = 0 ∧
      (walledStateBC cbcm).pu ⟨1, by omega⟩ ⟨0, by omega⟩ = 0 ∧
      (walledStateBC cbcm).pu ⟨5, by omega⟩ ⟨0, by omega⟩ = 0 ∧
      (walledStateBC cbcm).pu ⟨6, by omega⟩ ⟨0, by omega⟩ = 0 :=
  (C4_walled_state_bc cbcm (by norm_num) (by norm_num)).1 ⟨0, by omega⟩


/-- Concrete tracer field, increasing in x, for the C5 counterexample
(`nx = 2`, `ny = 1`). -/
def c5q : Mat 4 3 := fun i _ => (i.val : ℚ)

/-- C5 counterexample: the Periodic variant's tracer boundary operation is a
periodic x-wrap, not the mirror/zero-gradient rule the claim asserts, and it
differs from the Walled variant's operation on the same field: at the
interior row of the concrete field below, the wrapped column 0 is neither
equal to its adjacent interior column nor to the Walled result. -/
theorem C5_counterexample :
    periodicBCto c5q ⟨0, by omega⟩ ⟨1, by omega⟩ ≠
      periodicBCto c5q ⟨1, by omega⟩ ⟨1, by omega⟩ ∧
    periodicBCto c5q ⟨0, by omega⟩ ⟨1, by omega⟩ ≠
      walledBCto c5q ⟨0, by omega⟩ ⟨1, by omega⟩ := by
  constructor
  · rw [show (periodicBCto c5q ⟨0, by omega⟩ ⟨1, by omega⟩ : ℚ) = c5q ⟨2, by omega⟩ ⟨1, by omega⟩ by
      rw [periodicBCto, fm_mid _ _ _ (by norm_num) (by norm_num), wrapXtracer_col0 _ _ _ rfl],
      show (periodicBCto c5q ⟨1, by omega⟩ ⟨1, by omega⟩ : ℚ) = c5q ⟨1, by omega⟩ ⟨1, by omega⟩ by
      rw [periodicBCto, fm_mid _ _ _ (by norm_num) (by norm_num),
        wrapXtracer_mid _ _ _ (by norm_num) (by norm_num)]]
    norm_num [c5q]
  · rw [show (periodicBCto c5q ⟨0, by omega⟩ ⟨1, by omega⟩ : ℚ) = c5q ⟨2, by omega⟩ ⟨1, by omega⟩ by
      rw [periodicBCto, fm_mid _ _ _ (by norm_num) (by norm_num), wrapXtracer_col0 _ _ _ rfl],
      show (walledBCto c5q ⟨0, by omega⟩ ⟨1, by omega⟩ : ℚ) = c5q ⟨1, by omega⟩ ⟨1, by omega⟩ by
      rw [walledBCto, fm_mid _ _ _ (by norm_num) (by norm_num), mirrorXtracer_col0 _ _ _ rfl]]
    norm_num [c5q]

/-- C5 amended: the two variants' tracer boundary operations agree on the
y-boundaries (zero-gradient mirror rows) and neither ever applies the
Walled variant's hard-zero velocity treatment, but they differ at the
x-boundaries: the Walled operation applies the zero-gradient mirror
(boundary column equals adjacent interior column) while the Periodic
operation applies the same periodic wrap it applies to its scalar state
fields (column 0 equals column -2 and column -1 equals column 1). -/
theorem C5_amended_tracer_bc (f : Mat (nx + 2) (ny + 2)) (hx : 2 ≤ nx) (hy : 1 ≤ ny) :
    (∀ j, walledBCto f ⟨0, by omega⟩ j = walledBCto f ⟨1, by omega⟩ j) ∧
    (∀ j, walledBCto f ⟨nx + 1, by omega⟩ j = walledBCto f ⟨nx, by omega⟩ j) ∧
    (∀ j, periodicBCto f ⟨0, by omega⟩ j = periodicBCto f ⟨nx, by omega⟩ j) ∧
    (∀ j, periodicBCto f ⟨nx + 1, by omega⟩ j = periodicBCto f ⟨1, by omega⟩ j) ∧
    (∀ i, walledBCto f i ⟨0, by omega⟩ = walledBCto f i ⟨1, by omega⟩ ∧
      walledBCto f i ⟨ny + 1, by omega⟩ = walledBCto f i ⟨ny, by omega⟩) ∧
    (∀ i, periodicBCto f i ⟨0, by omega⟩ = periodicBCto f i ⟨1, by omega⟩ ∧
      periodicBCto f i ⟨ny + 1, by omega⟩ = periodicBCto f i ⟨ny, by omega⟩) := by
  simp only [periodicBCto, walledBCto]
  refine ⟨fun j => fm_coleq _ hy _ _ (fun j' => ?_) j,
    fun j => fm_coleq _ hy _ _ (fun j' => ?_) j,
    fun j => fm_coleq _ hy _ _ (fun j' => ?_) j,
    fun j => fm_coleq _ hy _ _ (fun j' => ?_) j,
    fun i => ⟨fm_row0eq _ hy i, fm_rowlasteq _ hy i⟩,
    fun i => ⟨fm_row0eq _ hy i, fm_rowlasteq _ hy i⟩⟩
  · rw [mirrorXtracer_col0 f _ _ rfl,
      mirrorXtracer_mid f _ _ (by first | omega | (simp only [Fin.val_mk]; omega))
        (by first | omega | (simp only [Fin.val_mk]; omega))]
  · rw [mirrorXtracer_collast f _ _ (by omega) rfl,
      mirrorXtracer_mid f _ _ (by first | omega | (simp only [Fin.val_mk]; omega))
        (by first | omega | (simp only [Fin.val_mk]; omega))]
  · rw [wrapXtracer_col0 f _ _ rfl,
      wrapXtracer_mid f _ _ (by first | omega | (simp only [Fin.val_mk]; omega))
        (by first | omega | (simp only [Fin.val_mk]; omega))]
  · rw [wrapXtracer_collast f _ _ rfl,
      wrapXtracer_mid f _ _ (by first | omega | (simp only [Fin.val_mk]; omega))
        (by first | omega | (simp only [Fin.val_mk]; omega))]

/-- C5 amended witness: the Walled mirror equality evaluated on `c5q`. -/
theorem C5_amended_tracer_bc_witness :
    walledBCto c5q ⟨0, by omega⟩ ⟨0, by omega⟩ = walledBCto c5q ⟨1, by omega⟩ ⟨0, by omega⟩ :=
  (C5_amended_tracer_bc c5q (by norm_num) (by norm_num)).1 ⟨0, by omega⟩



lemma interior_zero {a b : ℕ} : interior (0 : Mat (a + 2) (b + 2)) = 0 := rfl

lemma setInterior_zero {a b : ℕ} :
    setInterior (0 : Mat (a + 2) (b + 2)) (0 : Mat a b) = 0 := by
  funext i j
  simp only [setInterior]
  split <;> rfl

lemma ymirror_of_zero {a b : ℕ} : ymirror (0 : Mat a (b + 2)) = 0 := by
  funext i j
  simp only [ymirror, setYrow]
  split_ifs <;> rfl

lemma fixCorners_of_zero {a b : ℕ} : fixCorners (0 : Mat (a + 2) (b + 2)) = 0 := by
  funext i j
  simp only [fixCorners]
  split_ifs <;> rfl

lemma periodicXu_of_zero (m : SW nx ny) (h : m.pu = 0) : periodicXu m = 0 := by
  funext i j
  simp only [periodicXu, setXcol, h]
  split_ifs <;> rfl

lemma periodicXv_of_zero (m : SW nx ny) (h : m.pv = 0) : periodicXv m = 0 := by
  funext i j
  simp only [periodicXv, setXcol, h]
  split_ifs <;> rfl

lemma periodicXphi_of_zero (m : SW nx ny) (h : m.pphi = 0) : periodicXphi m = 0 := by
  funext i j
  simp only [periodicXphi, setXcol, h]
  split_ifs <;> rfl

lemma walledXu_of_zero (m : SW nx ny) (h : m.pu = 0) : walledXu m = 0 := by
  funext i j
  simp only [walledXu, setXcol, h]
  split_ifs <;> rfl

lemma walledXv_of_zero (m : SW nx ny) (h : m.pv = 0) : walledXv m = 0 := by
  funext i j
  simp only [walledXv, setXcol, h]
  split_ifs <;> rfl

lemma walledXphi_of_zero (m : SW nx ny) (h : m.pphi = 0) : walledXphi m = 0 := by
  funext i j
  simp only [walledXphi, setXcol, h]
  split_ifs <;> rfl

lemma diffx_of_zero {m n : ℕ} (dx : ℚ) : diffx dx (0 : Mat (m + 1) n) = 0 := by
  funext i j; simp [diffx]

lemma diffy_of_zero {m n : ℕ} (dy : ℚ) : diffy dy (0 : Mat m (n + 1)) = 0 := by
  funext i j; simp [diffy]

lemma x_average_of_zero {m n : ℕ} : x_average (0 : Mat (m + 1) n) = 0 := by
  funext i j; simp [x_average]

lemma y_average_of_zero {m n : ℕ} : y_average (0 : Mat m (n + 1)) = 0 := by
  funext i j; simp [y_average]

lemma trimx_of_zero {m n : ℕ} : trimx (0 : Mat (m + 2) n) = 0 := rfl

lemma trimy_of_zero {m n : ℕ} : trimy (0 : Mat m (n + 2)) = 0 := rfl

lemma del2_of_zero {m n : ℕ} (dx dy : ℚ) : del2 dx dy (0 : Mat (m + 2) (n + 2)) = 0 := by
  funext i j; simp [del2]

lemma damping_of_zero {a b : ℕ} (m : SW nx ny) (hs : 1 ≤ m.spongeNY)
    (hsb : m.spongeNY ≤ b) : damping m (0 : Mat a b) = some 0 := by
  simp only [damping, dampingP]
  rw [if_neg (by omega)]
  exact congrArg some (by funext i j; simp)


lemma sumForcings_nil (m : SW nx ny) (hf : m.forcings = []) (base : STrip nx ny) :
    sumForcings m base = some base := by
  simp [sumForcings, hf]

lemma nonlinRhs_zero (m : SW nx ny) (hu : m.pu = 0) (hv : m.pv = 0) (hp : m.pphi = 0)
    (hf : m.forcings = []) (hs : 1 ≤ m.spongeNY) (hsb : m.spongeNY ≤ ny) :
    nonlinRhs m = some 0 := by
  have hdu : damping m (0 : Mat (nx + 1) ny) = some 0 := damping_of_zero m hs (by omega)
  have hdv : damping m (0 : Mat nx (ny + 1)) = some 0 := damping_of_zero m hs (by omega)
  have huv : uView m = 0 := by rw [uView, hu, interior_zero]
  have hvv : vView m = 0 := by rw [vView, hv, interior_zero]
  simp only [nonlinRhs, hdu, hdv, Option.bind_eq_bind, Option.some_bind,
    sumForcings_nil m hf, uvatuv, huv, hvv, hu, hv, hp,
    x_average_of_zero, y_average_of_zero, trimx_of_zero, trimy_of_zero,
    diffx_of_zero, diffy_of_zero, del2_of_zero,
    mul_zero, zero_mul, smul_zero, neg_zero, add_zero, zero_add, sub_zero,
    zero_sub, sub_self, Option.some.injEq]
  rfl



lemma swDynamicsTerms_zero (m : SW nx ny) (hu : m.pu = 0) (hv : m.pv = 0)
    (hp : m.pphi = 0) (hs : 1 ≤ m.spongeNY) (hsb : m.spongeNY ≤ ny) :
    swDynamicsTerms m = some 0 := by
  have hdu : damping m (0 : Mat (nx + 1) ny) = some 0 := damping_of_zero m hs (by omega)
  have hdv : damping m (0 : Mat nx (ny + 1)) = some 0 := damping_of_zero m hs (by omega)
  have huv : uView m = 0 := by rw [uView, hu, interior_zero]
  have hvv : vView m = 0 := by rw [vView, hv, interior_zero]
  simp only [swDynamicsTerms, hdu, hdv, Option.bind_eq_bind, Option.some_bind,
    uvatuv, huv, hvv, hu, hv, hp,
    x_average_of_zero, y_average_of_zero, trimx_of_zero, trimy_of_zero,
    diffx_of_zero, diffy_of_zero, del2_of_zero,
    mul_zero, zero_mul, smul_zero, neg_zero, add_zero, zero_add, sub_zero,
    zero_sub, sub_self, Option.some.injEq]
  rfl

lemma linDynamicsTerms_zero (m : SW nx ny) (hu : m.pu = 0) (hv : m.pv = 0)
    (hp : m.pphi = 0) (hs : 1 ≤ m.spongeNY) (hsb : m.spongeNY ≤ ny) :
    linDynamicsTerms m = some 0 := by
  have hdu : damping m (0 : Mat (nx + 1) ny) = some 0 := damping_of_zero m hs (by omega)
  have hdv : damping m (0 : Mat nx (ny + 1)) = some 0 := damping_of_zero m hs (by omega)
  have hdp : damping m (0 : Mat nx ny) = some 0 := damping_of_zero m hs (by omega)
  have huv : uView m = 0 := by rw [uView, hu, interior_zero]
  have hvv : vView m = 0 := by rw [vView, hv, interior_zero]
  have hpv : phiView m = 0 := by rw [phiView, hp, interior_zero]
  simp only [linDynamicsTerms, divergenceM, hdu, hdv, hdp, Option.bind_eq_bind,
    Option.some_bind, uvatuv, huv, hvv, hpv, hu, hv, hp,
    x_average_of_zero, y_average_of_zero, trimx_of_zero, trimy_of_zero,
    diffx_of_zero, diffy_of_zero, del2_of_zero,
    mul_zero, zero_mul, smul_zero, neg_zero, add_zero, zero_add, sub_zero,
    zero_sub, sub_self, Option.some.injEq]
  rfl

lemma rhsOf_zero (dyn : Variant) (m : SW nx ny) (hu : m.pu = 0) (hv : m.pv = 0)
    (hp : m.pphi = 0) (hf : m.forcings = []) (hs : 1 ≤ m.spongeNY)
    (hsb : m.spongeNY ≤ ny) : rhsOf dyn m = some 0 := by
  cases dyn with
  | nonlin => exact nonlinRhs_zero m hu hv hp hf hs hsb
  | linBase =>
    simp [rhsOf, swDynamicsTerms_zero m hu hv hp hs hsb, sumForcings_nil m hf]
  | linLinear =>
    simp [rhsOf, linDynamicsTerms_zero m hu hv hp hs hsb, sumForcings_nil m hf]

lemma applyStateBC_of_zero (bcv : BCVariant) (m : SW nx ny) (hu : m.pu = 0)
    (hv : m.pv = 0) (hp : m.pphi = 0) :
    (applyStateBC bcv m).pu = 0 ∧ (applyStateBC bcv m).pv = 0 ∧
      (applyStateBC bcv m).pphi = 0 := by
  cases bcv with
  | periodic =>
    refine ⟨?_, ?_, ?_⟩ <;>
      simp [applyStateBC, periodicStateBC, periodicXu_of_zero m hu,
        periodicXv_of_zero m hv, periodicXphi_of_zero m hp,
        ymirror_of_zero, fixCorners_of_zero]
  | walled =>
    refine ⟨?_, ?_, ?_⟩ <;>
      simp [applyStateBC, walledStateBC, walledXu_of_zero m hu,
        walledXv_of_zero m hv, walledXphi_of_zero m hp,
        ymirror_of_zero, fixCorners_of_zero]



lemma abInc_zero {T : Type} [AddCommGroup T] [Module ℚ T] (dt : ℚ) (hist : List T)
    (h : ∀ x ∈ hist, x = 0) : abInc dt hist (0 : T) = 0 := by
  match hist with
  | [] => simp [abInc]
  | [f1] => simp [abInc, h f1 (by simp)]
  | f1 :: f2 :: rest => simp [abInc, h f1 (by simp), h f2 (by simp)]

lemma applyStateBC_proj (bcv : BCVariant) (m : SW nx ny) :
    (applyStateBC bcv m).spongeNY = m.spongeNY ∧
    (applyStateBC bcv m).sponge = m.sponge ∧
    (applyStateBC bcv m).forcings = m.forcings ∧
    (applyStateBC bcv m).tracers = m.tracers ∧
    (applyStateBC bcv m).stateHist = m.stateHist ∧
    (applyStateBC bcv m).dt = m.dt ∧
    (applyStateBC bcv m).t = m.t ∧
    (applyStateBC bcv m).tc = m.tc := by
  cases bcv <;> exact ⟨rfl, rfl, rfl, rfl, rfl, rfl, rfl, rfl⟩

lemma applyAllBC_proj (bcv : BCVariant) (m : SW nx ny) :
    (applyAllBC bcv m).pu = (applyStateBC bcv m).pu ∧
    (applyAllBC bcv m).pv = (applyStateBC bcv m).pv ∧
    (applyAllBC bcv m).pphi = (applyStateBC bcv m).pphi ∧
    (applyAllBC bcv m).spongeNY = m.spongeNY ∧
    (applyAllBC bcv m).sponge = m.sponge ∧
    (applyAllBC bcv m).forcings = m.forcings ∧
    (applyAllBC bcv m).tracers
      = m.tracers.map (fun p => (p.1, { p.2 with field := applyBCto bcv p.2.field })) ∧
    (applyAllBC bcv m).stateHist = m.stateHist ∧
    (applyAllBC bcv m).dt = m.dt ∧
    (applyAllBC bcv m).t = m.t ∧
    (applyAllBC bcv m).tc = m.tc := by
  obtain ⟨h1, h2, h3, h4, h5, h6, h7, h8⟩ := applyStateBC_proj bcv m
  exact ⟨rfl, rfl, rfl, h1, h2, h3, by simp [applyAllBC, h4], h5, h6, h7, h8⟩

lemma nlLoop_nil (dyn : Variant) (fuel : ℕ) (mc : SW nx ny) (k : ℕ)
    (h : mc.tracers = []) : nlLoop dyn fuel mc k = .ok mc := by
  cases fuel with
  | zero => rfl
  | succ fuel => rw [nlLoop]; simp [h]

lemma linLoop_nil (dyn : Variant) (fuel : ℕ) (mc : SW nx ny) (k : ℕ)
    (acc : List (Mat nx ny)) (h : mc.tracers = []) :
    linLoop dyn fuel mc k acc = .inl (mc, acc) := by
  cases fuel with
  | zero => rfl
  | succ fuel => rw [linLoop]; simp [h]

/-- The all-zero, no-tracer, no-forcing configuration, as an invariant. -/
def ZeroP (m : SW nx ny) : Prop :=
  m.pu = 0 ∧ m.pv = 0 ∧ m.pphi = 0 ∧ m.tracers = [] ∧ m.forcings = [] ∧
  (∀ x ∈ m.stateHist, x = (0 : STrip nx ny)) ∧ 1 ≤ m.spongeNY ∧ m.spongeNY ≤ ny

lemma commitFields_nil (m4 : SW nx ny) : (commitFields m4 []).pu = m4.pu ∧
    (commitFields m4 []).pv = m4.pv ∧ (commitFields m4 []).pphi = m4.pphi ∧
    (commitFields m4 []).tracers = [] ∧ (commitFields m4 []).forcings = m4.forcings ∧
    (commitFields m4 []).stateHist = m4.stateHist ∧
    (commitFields m4 []).spongeNY = m4.spongeNY :=
  ⟨rfl, rfl, rfl, by simp [commitFields], rfl, rfl, rfl⟩

lemma zeroP_commit (X : SW nx ny) (ns : STrip nx ny) (hXu : X.pu = 0)
    (hXv : X.pv = 0) (hXp : X.pphi = 0) (hXt : X.tracers = [])
    (hXf : X.forcings = []) (hXh : ∀ x ∈ X.stateHist, x = (0 : STrip nx ny))
    (hs1 : 1 ≤ X.spongeNY) (hs2 : X.spongeNY ≤ ny) (hns : ns = 0) :
    ZeroP (advanceClock (commitState X ns)) := by
  subst hns
  refine ⟨?_, ?_, ?_, hXt, hXf, hXh, hs1, hs2⟩
  · simp only [advanceClock, commitState, Prod.fst_zero]
    rw [hXu, setInterior_zero]
  · simp only [advanceClock, commitState, Prod.snd_zero, Prod.fst_zero]
    rw [hXv, setInterior_zero]
  · simp only [advanceClock, commitState, Prod.snd_zero]
    rw [hXp, setInterior_zero]

lemma stepOf_zeroP (dyn : Variant) (bcv : BCVariant) (m : SW nx ny) (h : ZeroP m) :
    ∃ m', stepOf dyn bcv m = .ok m' ∧ ZeroP m' ∧
      rhsOf dyn (applyAllBC bcv m) = some 0 := by
  obtain ⟨hu, hv, hp, ht, hf, hh, hs1, hs2⟩ := h
  obtain ⟨p1, p2, p3, p4, p5, p6, p7, p8, p9, p10, p11⟩ := applyAllBC_proj bcv m
  obtain ⟨b1, b2, b3⟩ := applyStateBC_of_zero bcv m hu hv hp
  have hm2u : (applyAllBC bcv m).pu = 0 := by rw [p1, b1]
  have hm2v : (applyAllBC bcv m).pv = 0 := by rw [p2, b2]
  have hm2p : (applyAllBC bcv m).pphi = 0 := by rw [p3, b3]
  have hm2t : (applyAllBC bcv m).tracers = [] := by rw [p7, ht]; rfl
  have hm2f : (applyAllBC bcv m).forcings = [] := by rw [p6, hf]
  have hrhs : rhsOf dyn (applyAllBC bcv m) = some 0 :=
    rhsOf_zero dyn _ hm2u hm2v hm2p hm2f (by omega) (by omega)
  have hstate : stateTriple (applyAllBC bcv m) = 0 := by
    simp only [stateTriple, uView, vView, phiView, hm2u, hm2v, hm2p, interior_zero]
    rfl
  have habz : abInc (applyAllBC bcv m).dt (applyAllBC bcv m).stateHist (0 : STrip nx ny)
      = 0 := by
    refine abInc_zero _ _ ?_
    rw [p8]
    exact hh
  have hns : stateTriple (applyAllBC bcv m)
      + abInc (applyAllBC bcv m).dt (applyAllBC bcv m).stateHist 0 = 0 := by
    rw [hstate, habz, zero_add]
  have hhist : ∀ x ∈ histPush (applyAllBC bcv m).stateHist (0 : STrip nx ny), x = 0 := by
    intro x hx
    rw [p8] at hx
    rcases List.mem_cons.mp (List.mem_of_mem_take hx) with h | h
    · exact h
    · exact hh x h
  cases dyn with
  | nonlin =>
    refine ⟨advanceClock (commitState
      { applyAllBC bcv m with stateHist := histPush (applyAllBC bcv m).stateHist (0 : STrip nx ny) }
      (stateTriple (applyAllBC bcv m) + abInc (applyAllBC bcv m).dt (applyAllBC bcv m).stateHist 0)), ?_, ?_, hrhs⟩
    · simp only [stepOf, hrhs]
      rw [nlLoop_nil _ _ _ _ (by simp [hm2t])]
    · exact zeroP_commit _ _ hm2u hm2v hm2p (by simp [hm2t]) hm2f hhist
        (by simpa [p4] using hs1) (by simpa [p4] using hs2) hns
  | linBase =>
    refine ⟨advanceClock (commitState (commitFields
      { applyAllBC bcv m with stateHist := histPush (applyAllBC bcv m).stateHist (0 : STrip nx ny) } [])
      (stateTriple (applyAllBC bcv m) + abInc (applyAllBC bcv m).dt (applyAllBC bcv m).stateHist 0)), ?_, ?_, hrhs⟩
    · simp only [stepOf, hrhs]
      rw [linLoop_nil _ _ _ _ _ (by simp [hm2t])]
    · obtain ⟨c1, c2, c3, c4, c5, c6, c7⟩ := commitFields_nil
        ({ applyAllBC bcv m with stateHist := histPush (applyAllBC bcv m).stateHist 0 } : SW nx ny)
      exact zeroP_commit _ _ (by rw [c1]; exact hm2u) (by rw [c2]; exact hm2v)
        (by rw [c3]; exact hm2p) c4 (by rw [c5]; exact hm2f)
        (by rw [c6]; exact hhist) (by rw [c7]; simpa [p4] using hs1)
        (by rw [c7]; simpa [p4] using hs2) hns
  | linLinear =>
    refine ⟨advanceClock (commitState (commitFields
      { applyAllBC bcv m with stateHist := histPush (applyAllBC bcv m).stateHist (0 : STrip nx ny) } [])
      (stateTriple (applyAllBC bcv m) + abInc (applyAllBC bcv m).dt (applyAllBC bcv m).stateHist 0)), ?_, ?_, hrhs⟩
    · simp only [stepOf, hrhs]
      rw [linLoop_nil _ _ _ _ _ (by simp [hm2t])]
    · obtain ⟨c1, c2, c3, c4, c5, c6, c7⟩ := commitFields_nil
        ({ applyAllBC bcv m with stateHist := histPush (applyAllBC bcv m).stateHist 0 } : SW nx ny)
      exact zeroP_commit _ _ (by rw [c1]; exact hm2u) (by rw [c2]; exact hm2v)
        (by rw [c3]; exact hm2p) c4 (by rw [c5]; exact hm2f)
        (by rw [c6]; exact hhist) (by rw [c7]; simpa [p4] using hs1)
        (by rw [c7]; simpa [p4] using hs2) hns


/-- C9: a model with zero Coriolis parameters, no forcings, no tracers and
all state fields exactly zero stays exactly zero through any number of
`step()` calls, in every dynamics/boundary variant; in particular the
computed tendency triple is exactly zero at each step (the sponge region
must be non-empty and no wider than the domain for the damping broadcast to
go through, as with any constructor-built grid with `ny ≥ 7`). -/
theorem C9_zero_state_stays_zero (dyn : Variant) (bcv : BCVariant) (m : SW nx ny)
    (n : ℕ) (hf0 : m.f0 = 0) (hbeta : m.beta = 0) (hfor : m.forcings = [])
    (htr : m.tracers = []) (hu : m.pu = 0) (hv : m.pv = 0) (hp : m.pphi = 0)
    (hh : m.stateHist = []) (hs1 : 1 ≤ m.spongeNY) (hs2 : m.spongeNY ≤ ny) :
    ∃ m', steps dyn bcv n m = .ok m' ∧ m'.pu = 0 ∧ m'.pv = 0 ∧ m'.pphi = 0 ∧
      rhsOf dyn (applyAllBC bcv m') = some 0 := by
  have hz : ZeroP m := ⟨hu, hv, hp, htr, hfor, by simp [hh], hs1, hs2⟩
  have key : ∀ k : ℕ, ∃ m', steps dyn bcv k m = .ok m' ∧ ZeroP m' := by
    intro k
    induction k with
    | zero => exact ⟨m, rfl, hz⟩
    | succ k ih =>
      obtain ⟨m', hst, hzp⟩ := ih
      obtain ⟨m'', hs', hz', _⟩ := stepOf_zeroP dyn bcv m' hzp
      refine ⟨m'', ?_, hz'⟩
      simp [steps, hst, hs']
  obtain ⟨m', hst, hz'⟩ := key n
  obtain ⟨m'', hok, hz'', hrhs⟩ := stepOf_zeroP dyn bcv m' hz'
  exact ⟨m', hst, hz'.1, hz'.2.1, hz'.2.2.1, hrhs⟩

/-- A concrete fresh all-zero model with `ny = 7` (so `sponge_ny = 1`) for
the C9 witness. -/
def c9m : SW 2 7 := swMk 2 7 10 10 0 0 1 1 1 1 1 1000 fun _ => 0

/-- C9 witness: three steps of the concrete zero model stay exactly zero. -/
theorem C9_zero_state_stays_zero_witness :
    ∃ m', steps .nonlin .periodic 3 c9m = .ok m' ∧ m'.pu = 0 ∧ m'.pv = 0 ∧
      m'.pphi = 0 ∧ rhsOf .nonlin (applyAllBC .periodic m') = some 0 :=
  C9_zero_state_stays_zero .nonlin .periodic c9m 3 rfl rfl rfl rfl rfl rfl rfl rfl
    (by norm_num [c9m, swMk]) (by norm_num [c9m, swMk])


lemma damping_fail (m : SW nx ny) (var : Mat a b) (hs : m.spongeNY = 0)
    (hb : b ≠ 0) : damping m var = none := by
  simp [damping, dampingP, hs, hb]

lemma rhsOf_none_of_empty_sponge (dyn : Variant) (m : SW nx ny)
    (hs : m.spongeNY = 0) (hy : ny ≠ 0) : rhsOf dyn m = none := by
  have hdu : damping m (uView m) = none := damping_fail m _ hs hy
  have hdp : damping m (phiView m) = none := damping_fail m _ hs hy
  cases dyn with
  | nonlin => simp [rhsOf, nonlinRhs, hdu]
  | linBase => simp [rhsOf, swDynamicsTerms, hdu]
  | linLinear => simp [rhsOf, linDynamicsTerms, hdp]

lemma stepOf_exc_of_empty_sponge (dyn : Variant) (bcv : BCVariant) (m : SW nx ny)
    (hs : m.spongeNY = 0) (hy : ny ≠ 0) :
    stepOf dyn bcv m = .exc (applyAllBC bcv m) := by
  have h4 := (applyAllBC_proj bcv m).2.2.2.1
  have : rhsOf dyn (applyAllBC bcv m) = none :=
    rhsOf_none_of_empty_sponge dyn _ (by rw [h4, hs]) hy
  simp only [stepOf, this]

/-- C8 amended: the constructors perform no validation at all.  Any grid
sizes and any (even non-positive) time step are accepted; when
`1 ≤ ny < 7` the integer division makes the sponge region empty
(`sponge_ny = ny // 7 = 0`) and no error is raised at construction —
instead the very first `step()` raises, in every variant, when the sponge
damping's empty profile fails to broadcast inside the tendency evaluation. -/
theorem C8_amended_no_construction_validation (nx ny : ℕ)
    (Lx Ly f0 beta nu nuPhi r g H dt : ℚ) (sponge : ℕ → ℚ) (dyn : Variant)
    (bcv : BCVariant) (hy1 : 1 ≤ ny) (hy7 : ny < 7) :
    (swMk nx ny Lx Ly f0 beta nu nuPhi r g H dt sponge).spongeNY = 0 ∧
    stepOf dyn bcv (swMk nx ny Lx Ly f0 beta nu nuPhi r g H dt sponge)
      = .exc (applyAllBC bcv (swMk nx ny Lx Ly f0 beta nu nuPhi r g H dt sponge)) := by
  have hs : (swMk nx ny Lx Ly f0 beta nu nuPhi r g H dt sponge).spongeNY = 0 :=
    Nat.div_eq_of_lt hy7
  exact ⟨hs, stepOf_exc_of_empty_sponge dyn bcv _ hs (by omega)⟩

/-- A concrete invalid configuration: `ny = 5 < 7` and a negative time step,
both accepted silently by the constructor. -/
def c8m : SW 4 5 := swMk 4 5 10 10 0 0 1 1 1 1 1 (-1) fun _ => 0

/-- C8 counterexample: the invalid configuration above is not rejected at
construction (the constructor returns a model, with an empty sponge and the
negative time step stored), and the failure instead surfaces inside the
stepping loop: the first `step()` raises during the sponge damping
computation of the tendency evaluation. -/
theorem C8_counterexample :
    c8m.spongeNY = 0 ∧ c8m.dt = -1 ∧
    stepOf .nonlin .periodic c8m = .exc (applyAllBC .periodic c8m) :=
  ⟨rfl, rfl, stepOf_exc_of_empty_sponge .nonlin .periodic c8m rfl (by omega)⟩

/-- C8 amended witness: the amended theorem at `ny = 3` with the Walled
linear variant. -/
theorem C8_amended_no_construction_validation_witness :
    (swMk 4 3 10 10 0 0 1 1 1 1 1 1000 (fun _ => 0)).spongeNY = 0 ∧
    stepOf .linLinear .walled (swMk 4 3 10 10 0 0 1 1 1 1 1 1000 (fun _ => 0))
      = .exc (applyAllBC .walled (swMk 4 3 10 10 0 0 1 1 1 1 1 1000 (fun _ => 0))) :=
  C8_amended_no_construction_validation 4 3 10 10 0 0 1 1 1 1 1 1000 (fun _ => 0)
    .linLinear .walled (by norm_num) (by norm_num)

lemma interior_setInterior {a b : ℕ} (A : Mat (a + 2) (b + 2)) (B : Mat a b) :
    interior (setInterior A B) = B := by
  funext i j
  have hi := i.isLt
  have hj := j.isLt
  simp only [interior, setInterior]
  rw [dif_pos (by omega)]
  rfl

lemma stateTriple_commit (X : SW nx ny) (ns : STrip nx ny) :
    stateTriple (advanceClock (commitState X ns)) = ns := by
  obtain ⟨n1, n2, n3⟩ := ns
  simp only [stateTriple, advanceClock, commitState, uView, vView, phiView,
    interior_setInterior]

lemma tracers_commit (X : SW nx ny) (ns : STrip nx ny) :
    (advanceClock (commitState X ns)).tracers = X.tracers := rfl

lemma tracerEnvOf_setHist (m : SW nx ny) (h : List (STrip nx ny)) :
    tracerEnvOf { m with stateHist := h } = tracerEnvOf m := rfl

lemma map_set_self {α β : Type} (f : α → β) (l : List α) (k : ℕ) (a : α)
    (hk : k < l.length) (hfa : f a = f (l.get ⟨k, hk⟩)) :
    (l.set k a).map f = l.map f := by
  apply List.ext_get
  · simp
  · intro i h1 h2
    simp only [List.get_map, List.get_set]
    split
    · next he => subst he; rw [hfa]
    · rfl

lemma tracerEnvOf_set_hist (mc : SW nx ny) (k : ℕ) (hk : k < mc.tracers.length)
    (h' : List (Mat nx ny)) :
    tracerEnvOf { mc with tracers := (mc.tracers.set k
        ((mc.tracers.get ⟨k, hk⟩).1, { (mc.tracers.get ⟨k, hk⟩).2 with hist := h' })) }
      = tracerEnvOf mc := by
  have h := map_set_self (fun p : String × Tracer nx ny => (p.1, interior p.2.field))
    mc.tracers k ((mc.tracers.get ⟨k, hk⟩).1, { (mc.tracers.get ⟨k, hk⟩).2 with hist := h' })
    hk rfl
  simp only [tracerEnvOf, uView, vView, viewOf, phiView, h]

lemma nlLoop_zero (dyn : Variant) (mc : SW nx ny) (k : ℕ) :
    nlLoop dyn 0 mc k = .ok mc := rfl

lemma nlLoop_stop (dyn : Variant) (fuel : ℕ) (mc : SW nx ny) (k : ℕ)
    (h : ¬ k < mc.tracers.length) : nlLoop dyn (fuel + 1) mc k = .ok mc := by
  rw [nlLoop, dif_neg h]

lemma nlLoop_succ_none (dyn : Variant) (fuel : ℕ) (mc : SW nx ny) (k : ℕ)
    (h : k < mc.tracers.length)
    (hrt : tracerRhs dyn (tracerEnvOf mc) (mc.tracers.get ⟨k, h⟩).2 = none) :
    nlLoop dyn (fuel + 1) mc k = .exc mc := by
  rw [nlLoop, dif_pos h]
  simp only [hrt]

lemma nlLoop_succ_some (dyn : Variant) (fuel : ℕ) (mc : SW nx ny) (k : ℕ)
    (h : k < mc.tracers.length) (f : Mat nx ny)
    (hrt : tracerRhs dyn (tracerEnvOf mc) (mc.tracers.get ⟨k, h⟩).2 = some f) :
    nlLoop dyn (fuel + 1) mc k
      = nlLoop dyn fuel
          { mc with tracers := mc.tracers.set k ((mc.tracers.get ⟨k, h⟩).1,
            { (mc.tracers.get ⟨k, h⟩).2 with
              field := setInterior (mc.tracers.get ⟨k, h⟩).2.field
                (interior (mc.tracers.get ⟨k, h⟩).2.field
                  + abInc mc.dt (mc.tracers.get ⟨k, h⟩).2.hist f)
              hist := histPush (mc.tracers.get ⟨k, h⟩).2.hist f }) }
          (k + 1) := by
  rw [nlLoop, dif_pos h]
  simp only [hrt]

lemma linLoop_zero (dyn : Variant) (mc : SW nx ny) (k : ℕ) (acc : List (Mat nx ny)) :
    linLoop dyn 0 mc k acc = .inl (mc, acc) := rfl

lemma linLoop_stop (dyn : Variant) (fuel : ℕ) (mc : SW nx ny) (k : ℕ)
    (acc : List (Mat nx ny)) (h : ¬ k < mc.tracers.length) :
    linLoop dyn (fuel + 1) mc k acc = .inl (mc, acc) := by
  rw [linLoop, dif_neg h]

lemma linLoop_succ_none (dyn : Variant) (fuel : ℕ) (mc : SW nx ny) (k : ℕ)
    (acc : List (Mat nx ny)) (h : k < mc.tracers.length)
    (hrt : tracerRhs dyn (tracerEnvOf mc) (mc.tracers.get ⟨k, h⟩).2 = none) :
    linLoop dyn (fuel + 1) mc k acc = .inr mc := by
  rw [linLoop, dif_pos h]
  simp only [hrt]

lemma linLoop_succ_some (dyn : Variant) (fuel : ℕ) (mc : SW nx ny) (k : ℕ)
    (acc : List (Mat nx ny)) (h : k < mc.tracers.length) (f : Mat nx ny)
    (hrt : tracerRhs dyn (tracerEnvOf mc) (mc.tracers.get ⟨k, h⟩).2 = some f) :
    linLoop dyn (fuel + 1) mc k acc
      = linLoop dyn fuel
          { mc with tracers := mc.tracers.set k ((mc.tracers.get ⟨k, h⟩).1,
              { (mc.tracers.get ⟨k, h⟩).2 with
                hist := histPush (mc.tracers.get ⟨k, h⟩).2.hist f }) }
          (k + 1)
          (acc ++ [interior (mc.tracers.get ⟨k, h⟩).2.field
            + abInc mc.dt (mc.tracers.get ⟨k, h⟩).2.hist f]) := by
  rw [linLoop, dif_pos h]
  simp only [hrt]

lemma get_cons_pos {α : Type} (a : α) (l : List α) (n : ℕ) (h : n < (a :: l).length)
    (hn : 0 < n) : (a :: l).get ⟨n, h⟩ = l.get ⟨n - 1, by simp at h; omega⟩ := by
  cases n with
  | zero => omega
  | succ n => rfl

lemma get_at_zero {α : Type} (a : α) (l : List α) (n : ℕ) (h : n < (a :: l).length)
    (hn : n = 0) : (a :: l).get ⟨n, h⟩ = a := by
  subst hn
  rfl

lemma linLoop_ind (dyn : Variant) (m2 : SW nx ny) :
    ∀ (fuel k : ℕ) (mc : SW nx ny) (acc : List (Mat nx ny)),
      mc.tracers.length = m2.tracers.length →
      fuel + k = m2.tracers.length →
      tracerEnvOf mc = tracerEnvOf m2 →
      mc.dt = m2.dt →
      (∀ i (hi : i < mc.tracers.length) (hi2 : i < m2.tracers.length), k ≤ i →
        mc.tracers.get ⟨i, hi⟩ = m2.tracers.get ⟨i, hi2⟩) →
      ((∀ m4 nf, linLoop dyn fuel mc k acc = .inl (m4, nf) →
        m4.tracers.length = m2.tracers.length ∧
        ∃ (tail : List (Mat nx ny)) (htl : tail.length + k = m2.tracers.length),
          nf = acc ++ tail ∧
          ∀ i (hik : k ≤ i) (hi2 : i < m2.tracers.length),
            ∃ f, tracerRhs dyn (tracerEnvOf m2) (m2.tracers.get ⟨i, hi2⟩).2 = some f ∧
              tail.get ⟨i - k, by omega⟩
                = interior (m2.tracers.get ⟨i, hi2⟩).2.field
                  + abInc m2.dt (m2.tracers.get ⟨i, hi2⟩).2.hist f) ∧
      (∀ me, linLoop dyn fuel mc k acc = .inr me → tracerEnvOf me = tracerEnvOf m2)) := by
  intro fuel
  induction fuel with
  | zero =>
    intro k mc acc hlen hfk henv hdt hsuf
    constructor
    · intro m4 nf hres
      rw [linLoop_zero] at hres
      have hmc : mc = m4 ∧ acc = nf := by
        constructor <;> [exact congrArg Prod.fst (Sum.inl.inj hres);
          exact congrArg Prod.snd (Sum.inl.inj hres)]
      obtain ⟨hmc1, hmc2⟩ := hmc
      refine ⟨by rw [← hmc1, hlen], [], by simpa using hfk, ?_, ?_⟩
      · rw [← hmc2]; simp
      · intro i hik hi2; omega
    · intro me hres
      rw [linLoop_zero] at hres
      exact absurd hres (by simp)
  | succ fuel ih =>
    intro k mc acc hlen hfk henv hdt hsuf
    have hk : k < mc.tracers.length := by omega
    have hk2 : k < m2.tracers.length := by omega
    have hpr : mc.tracers.get ⟨k, hk⟩ = m2.tracers.get ⟨k, hk2⟩ := hsuf k hk hk2 le_rfl
    cases hrt : tracerRhs dyn (tracerEnvOf mc) (mc.tracers.get ⟨k, hk⟩).2 with
    | none =>
      rw [linLoop_succ_none dyn fuel mc k acc hk hrt]
      constructor
      · intro m4 nf hres
        exact absurd hres (by simp)
      · intro me hres
        have : mc = me := Sum.inr.inj hres
        rw [← this]
        exact henv
    | some f =>
      rw [linLoop_succ_some dyn fuel mc k acc hk f hrt]
      have hlen' : ({ mc with tracers := (mc.tracers.set k ((mc.tracers.get ⟨k, hk⟩).1, { (mc.tracers.get ⟨k, hk⟩).2 with hist := histPush (mc.tracers.get ⟨k, hk⟩).2.hist f })) } : SW nx ny).tracers.length = m2.tracers.length := by
        simp [List.length_set, hlen]
      have henv' : tracerEnvOf ({ mc with tracers := (mc.tracers.set k ((mc.tracers.get ⟨k, hk⟩).1, { (mc.tracers.get ⟨k, hk⟩).2 with hist := histPush (mc.tracers.get ⟨k, hk⟩).2.hist f })) } : SW nx ny) = tracerEnvOf m2 := by
        rw [tracerEnvOf_set_hist mc k hk]
        exact henv
      have hsuf' : ∀ i (hi : i < ({ mc with tracers := (mc.tracers.set k ((mc.tracers.get ⟨k, hk⟩).1, { (mc.tracers.get ⟨k, hk⟩).2 with hist := histPush (mc.tracers.get ⟨k, hk⟩).2.hist f })) } : SW nx ny).tracers.length)
          (hi2 : i < m2.tracers.length), k + 1 ≤ i →
          ({ mc with tracers := (mc.tracers.set k ((mc.tracers.get ⟨k, hk⟩).1, { (mc.tracers.get ⟨k, hk⟩).2 with hist := histPush (mc.tracers.get ⟨k, hk⟩).2.hist f })) } : SW nx ny).tracers.get ⟨i, hi⟩ = m2.tracers.get ⟨i, hi2⟩ := by
        intro i hi hi2 hik
        have hilen : i < mc.tracers.length := by simpa [List.length_set] using hi
        have hgs : ({ mc with tracers := (mc.tracers.set k ((mc.tracers.get ⟨k, hk⟩).1, { (mc.tracers.get ⟨k, hk⟩).2 with hist := histPush (mc.tracers.get ⟨k, hk⟩).2.hist f })) } : SW nx ny).tracers.get ⟨i, hi⟩ = mc.tracers.get ⟨i, hilen⟩ := by
          rw [List.get_set]
          exact if_neg (by omega)
        rw [hgs]
        exact hsuf i hilen hi2 (by omega)
      obtain ⟨IH1, IH2⟩ := ih (k + 1) _ (acc ++ [interior (mc.tracers.get ⟨k, hk⟩).2.field
          + abInc mc.dt (mc.tracers.get ⟨k, hk⟩).2.hist f]) hlen' (by omega) henv' hdt hsuf'
      constructor
      · intro m4 nf hres
        obtain ⟨hm4len, tail', htl', hnf', hspec'⟩ := IH1 m4 nf hres
        refine ⟨hm4len, (interior (mc.tracers.get ⟨k, hk⟩).2.field
            + abInc mc.dt (mc.tracers.get ⟨k, hk⟩).2.hist f) :: tail', by simp; omega, ?_, ?_⟩
        · rw [hnf']; simp
        · intro i hik hi2
          by_cases hik' : k + 1 ≤ i
          · obtain ⟨f', hf1, hf2⟩ := hspec' i hik' hi2
            refine ⟨f', hf1, ?_⟩
            rw [get_cons_pos _ _ _ _ (by omega)]
            exact hf2
          · have hik0 : i = k := by omega
            have hfin : (⟨i, hi2⟩ : Fin m2.tracers.length) = ⟨k, hk2⟩ := Fin.ext hik0
            refine ⟨f, by rw [hfin, ← henv, ← hpr]; exact hrt, ?_⟩
            have hzero : i - k = 0 := by omega
            rw [get_at_zero _ _ _ _ hzero, hfin, ← hpr, ← hdt]
      · intro me hres
        exact IH2 me hres

lemma ac_cs_tracers_get (X : SW nx ny) (ns : STrip nx ny) (k : ℕ)
    (hk : k < (advanceClock (commitState X ns)).tracers.length) :
    (advanceClock (commitState X ns)).tracers.get ⟨k, hk⟩ = X.tracers.get ⟨k, hk⟩ := rfl

lemma commitFields_tracers_length (m4 : SW nx ny) (nf : List (Mat nx ny)) :
    (commitFields m4 nf).tracers.length = min m4.tracers.length nf.length := by
  simp [commitFields]

lemma commitFields_get (m4 : SW nx ny) (nf : List (Mat nx ny)) (k : ℕ)
    (hk : k < (commitFields m4 nf).tracers.length) (hk1 : k < m4.tracers.length)
    (hk2 : k < nf.length) :
    (commitFields m4 nf).tracers.get ⟨k, hk⟩
      = ((m4.tracers.get ⟨k, hk1⟩).1,
        { (m4.tracers.get ⟨k, hk1⟩).2 with
          field := setInterior (m4.tracers.get ⟨k, hk1⟩).2.field (nf.get ⟨k, hk2⟩) }) := by
  simp [commitFields, List.get_eq_getElem, List.getElem_map, List.getElem_zip]

/-- Formalization of the C2 snapshot rule: relative to the post-boundary
snapshot `m2 = applyAllBC bcv m`, a completed `step()` commits a state equal
to the snapshot state plus the increment of the tendency evaluated on the
snapshot, and for each registered tracer an interior equal to its snapshot
interior plus the increment of its tendency evaluated against the same
snapshot — i.e. no increment observes any value committed during this step. -/
def SnapshotProp (dyn : Variant) (bcv : BCVariant) (m : SW nx ny) : Prop :=
  ∀ m', stepOf dyn bcv m = .ok m' →
    (∀ f, rhsOf dyn (applyAllBC bcv m) = some f →
      stateTriple m' = stateTriple (applyAllBC bcv m)
        + abInc (applyAllBC bcv m).dt (applyAllBC bcv m).stateHist f) ∧
    (∀ (k : ℕ) (hk : k < (applyAllBC bcv m).tracers.length)
        (hk' : k < m'.tracers.length) (g : Mat nx ny),
      tracerRhs dyn (tracerEnvOf (applyAllBC bcv m))
          ((applyAllBC bcv m).tracers.get ⟨k, hk⟩).2 = some g →
      interior ((m'.tracers.get ⟨k, hk'⟩).2.field)
        = interior (((applyAllBC bcv m).tracers.get ⟨k, hk⟩).2.field)
          + abInc (applyAllBC bcv m).dt
              (((applyAllBC bcv m).tracers.get ⟨k, hk⟩).2.hist) g)

lemma snapshot_linBase (bcv : BCVariant) (m : SW nx ny) :
    SnapshotProp .linBase bcv m := by
  intro m' hok
  cases hr : rhsOf .linBase (applyAllBC bcv m) with
  | none =>
    simp only [stepOf, hr] at hok
    exact absurd hok (by simp)
  | some f =>
    simp only [stepOf, hr] at hok
    revert hok
    cases hl : linLoop .linBase
        ({ applyAllBC bcv m with
            stateHist := histPush (applyAllBC bcv m).stateHist f } : SW nx ny).tracers.length
        { applyAllBC bcv m with
            stateHist := histPush (applyAllBC bcv m).stateHist f } 0 [] with
    | inr me => intro hok; simp at hok
    | inl p =>
      obtain ⟨m4, nf⟩ := p
      intro hok
      simp only [StepRes.ok.injEq] at hok
      obtain ⟨hm4len, tail, htl, hnf, hspec⟩ :=
        (linLoop_ind .linBase (applyAllBC bcv m) ({ applyAllBC bcv m with stateHist := histPush (applyAllBC bcv m).stateHist f } : SW nx ny).tracers.length 0
          ({ applyAllBC bcv m with stateHist := histPush (applyAllBC bcv m).stateHist f } : SW nx ny) [] rfl (by simp) rfl rfl
          (fun i hi hi2 _ => rfl)).1 m4 nf hl
      subst hok
      constructor
      · intro f' hf'
        rw [← Option.some.inj hf']
        exact stateTriple_commit _ _
      · intro k hk hk' g hg
        have hnfk : k < nf.length := by rw [hnf]; simpa using by omega
        have hk1 : k < m4.tracers.length := by omega
        have hkc : k < (commitFields m4 nf).tracers.length := by
          rw [commitFields_tracers_length]; omega
        rw [ac_cs_tracers_get, commitFields_get m4 nf k hkc hk1 hnfk]
        simp only [interior_setInterior]
        obtain ⟨fk, hfk1, hfk2⟩ := hspec k (by omega) hk
        have hgfk : g = fk := by
          rw [hg] at hfk1
          exact Option.some.inj hfk1
        have hnf' : nf = tail := by simpa using hnf
        subst hnf'
        rw [hgfk]
        exact hfk2
      done

lemma snapshot_linLinear (bcv : BCVariant) (m : SW nx ny) :
    SnapshotProp .linLinear bcv m := by
  intro m' hok
  cases hr : rhsOf .linLinear (applyAllBC bcv m) with
  | none =>
    simp only [stepOf, hr] at hok
    exact absurd hok (by simp)
  | some f =>
    simp only [stepOf, hr] at hok
    revert hok
    cases hl : linLoop .linLinear
        ({ applyAllBC bcv m with
            stateHist := histPush (applyAllBC bcv m).stateHist f } : SW nx ny).tracers.length
        { applyAllBC bcv m with
            stateHist := histPush (applyAllBC bcv m).stateHist f } 0 [] with
    | inr me => intro hok; simp at hok
    | inl p =>
      obtain ⟨m4, nf⟩ := p
      intro hok
      simp only [StepRes.ok.injEq] at hok
      obtain ⟨hm4len, tail, htl, hnf, hspec⟩ :=
        (linLoop_ind .linLinear (applyAllBC bcv m) ({ applyAllBC bcv m with stateHist := histPush (applyAllBC bcv m).stateHist f } : SW nx ny).tracers.length 0
          ({ applyAllBC bcv m with stateHist := histPush (applyAllBC bcv m).stateHist f } : SW nx ny) [] rfl (by simp) rfl rfl
          (fun i hi hi2 _ => rfl)).1 m4 nf hl
      subst hok
      constructor
      · intro f' hf'
        rw [← Option.some.inj hf']
        exact stateTriple_commit _ _
      · intro k hk hk' g hg
        have hnfk : k < nf.length := by rw [hnf]; simpa using by omega
        have hk1 : k < m4.tracers.length := by omega
        have hkc : k < (commitFields m4 nf).tracers.length := by
          rw [commitFields_tracers_length]; omega
        rw [ac_cs_tracers_get, commitFields_get m4 nf k hkc hk1 hnfk]
        simp only [interior_setInterior]
        obtain ⟨fk, hfk1, hfk2⟩ := hspec k (by omega) hk
        have hgfk : g = fk := by
          rw [hg] at hfk1
          exact Option.some.inj hfk1
        have hnf' : nf = tail := by simpa using hnf
        subst hnf'
        rw [hgfk]
        exact hfk2
      done



lemma snapshot_nonlin_le_one (bcv : BCVariant) (m : SW nx ny)
    (hlen : m.tracers.length ≤ 1) : SnapshotProp .nonlin bcv m := by
  intro m' hok
  cases hr : rhsOf .nonlin (applyAllBC bcv m) with
  | none =>
    simp only [stepOf, hr] at hok
    exact absurd hok (by simp)
  | some f =>
    simp only [stepOf, hr] at hok
    have hlen2 : (applyAllBC bcv m).tracers.length = m.tracers.length := by
      rw [(applyAllBC_proj bcv m).2.2.2.2.2.2.1]
      simp
    rcases Nat.lt_or_ge m.tracers.length 1 with h0 | h1
    · -- no tracers
      have ht0 : (applyAllBC bcv m).tracers.length = 0 := by omega
      rw [nlLoop_nil _ _ _ _ (List.length_eq_zero.mp (by simpa using ht0))] at hok
      simp only [StepRes.ok.injEq] at hok
      subst hok
      refine ⟨?_, ?_⟩
      · intro f' hf'
        rw [← Option.some.inj hf']
        exact stateTriple_commit _ _
      · intro k hk hk' g hg
        omega
    · -- exactly one tracer
      have ht1 : (applyAllBC bcv m).tracers.length = 1 := by omega
      have hk0 : 0 < ({ applyAllBC bcv m with
          stateHist := histPush (applyAllBC bcv m).stateHist f } : SW nx ny).tracers.length := by
        simpa using by omega
      rw [show ({ applyAllBC bcv m with
          stateHist := histPush (applyAllBC bcv m).stateHist f } : SW nx ny).tracers.length = 1
        from by simpa using ht1] at hok
      cases hrt : tracerRhs .nonlin
          (tracerEnvOf ({ applyAllBC bcv m with
            stateHist := histPush (applyAllBC bcv m).stateHist f } : SW nx ny))
          (({ applyAllBC bcv m with
            stateHist := histPush (applyAllBC bcv m).stateHist f } : SW nx ny).tracers.get
              ⟨0, hk0⟩).2 with
      | none =>
        rw [nlLoop_succ_none _ 0 _ 0 hk0 hrt] at hok
        exact absurd hok (by simp)
      | some ftr =>
        rw [nlLoop_succ_some _ 0 _ 0 hk0 ftr hrt, nlLoop_zero] at hok
        simp only [StepRes.ok.injEq] at hok
        subst hok
        refine ⟨?_, ?_⟩
        · intro f' hf'
          rw [← Option.some.inj hf']
          exact stateTriple_commit _ _
        · intro k hk hk' g hg
          have hkz : k = 0 := by omega
          subst hkz
          have hrt2 : tracerRhs .nonlin (tracerEnvOf (applyAllBC bcv m))
              ((applyAllBC bcv m).tracers.get ⟨0, hk⟩).2 = some ftr := hrt
          have hgf : g = ftr := by
            rw [hg] at hrt2
            exact Option.some.inj hrt2
          rw [ac_cs_tracers_get]
          have hset : (({ applyAllBC bcv m with
              stateHist := histPush (applyAllBC bcv m).stateHist f } : SW nx ny).tracers.set 0
              ((({ applyAllBC bcv m with
                stateHist := histPush (applyAllBC bcv m).stateHist f } : SW nx ny).tracers.get ⟨0, hk0⟩).1,
              { (({ applyAllBC bcv m with
                  stateHist := histPush (applyAllBC bcv m).stateHist f } : SW nx ny).tracers.get ⟨0, hk0⟩).2 with
                field := setInterior
                  ((({ applyAllBC bcv m with
                    stateHist := histPush (applyAllBC bcv m).stateHist f } : SW nx ny).tracers.get ⟨0, hk0⟩).2.field)
                  (interior ((({ applyAllBC bcv m with
                    stateHist := histPush (applyAllBC bcv m).stateHist f } : SW nx ny).tracers.get ⟨0, hk0⟩).2.field)
                    + abInc ({ applyAllBC bcv m with
                      stateHist := histPush (applyAllBC bcv m).stateHist f } : SW nx ny).dt
                      ((({ applyAllBC bcv m with
                        stateHist := histPush (applyAllBC bcv m).stateHist f } : SW nx ny).tracers.get ⟨0, hk0⟩).2.hist) ftr)
                hist := histPush
                  ((({ applyAllBC bcv m with
                    stateHist := histPush (applyAllBC bcv m).stateHist f } : SW nx ny).tracers.get ⟨0, hk0⟩).2.hist) ftr })).get
              ⟨0, by simpa [List.length_set] using hk0⟩
            = ((({ applyAllBC bcv m with
                stateHist := histPush (applyAllBC bcv m).stateHist f } : SW nx ny).tracers.get ⟨0, hk0⟩).1,
              { (({ applyAllBC bcv m with
                  stateHist := histPush (applyAllBC bcv m).stateHist f } : SW nx ny).tracers.get ⟨0, hk0⟩).2 with
                field := setInterior
                  ((({ applyAllBC bcv m with
                    stateHist := histPush (applyAllBC bcv m).stateHist f } : SW nx ny).tracers.get ⟨0, hk0⟩).2.field)
                  (interior ((({ applyAllBC bcv m with
                    stateHist := histPush (applyAllBC bcv m).stateHist f } : SW nx ny).tracers.get ⟨0, hk0⟩).2.field)
                    + abInc ({ applyAllBC bcv m with
                      stateHist := histPush (applyAllBC bcv m).stateHist f } : SW nx ny).dt
                      ((({ applyAllBC bcv m with
                        stateHist := histPush (applyAllBC bcv m).stateHist f } : SW nx ny).tracers.get ⟨0, hk0⟩).2.hist) ftr)
                hist := histPush
                  ((({ applyAllBC bcv m with
                    stateHist := histPush (applyAllBC bcv m).stateHist f } : SW nx ny).tracers.get ⟨0, hk0⟩).2.hist) ftr }) := by
            rw [List.get_set]
            exact if_pos rfl
          rw [hset]
          simp only [interior_setInterior]
          rw [hgf]

lemma tracer_conservation_zero_uv (dx dy : ℚ) (q : Mat (nx + 2) (ny + 2)) :
    tracer_conservation dx dy (0 : Mat (nx + 1) ny) (0 : Mat nx (ny + 1)) q = 0 := by
  simp [tracer_conservation, diffx_of_zero, diffy_of_zero]

lemma tracer_dynamics_terms_zero_uv (dx dy : ℚ) (q : Mat (nx + 2) (ny + 2)) :
    tracer_dynamics_terms dx dy (0 : Mat (nx + 1) ny) (0 : Mat nx (ny + 1)) q = 0 := by
  simp [tracer_dynamics_terms, diffx_of_zero, diffy_of_zero]

lemma tracerRhs_zero_uv (dyn : Variant) (e : TracerEnv nx ny) (tr : Tracer nx ny)
    (hu : e.u = 0) (hv : e.v = 0) (hkap : tr.kappa = 0)
    (hdamp : tr.applyDamping = false) :
    tracerRhs dyn e tr = tr.userRhs e.view := by
  cases dyn <;>
    (simp only [tracerRhs, hu, hv, tracer_conservation_zero_uv,
      tracer_dynamics_terms_zero_uv, hkap, hdamp, ne_eq, not_true_eq_false,
      if_false, neg_zero, Bool.false_eq_true, Option.bind_eq_bind,
      Option.some_bind, zero_add];
     cases h : tr.userRhs e.view <;> simp [h])

lemma wrapXtracer_of_zero {a b : ℕ} : wrapXtracer (0 : Mat (a + 2) (b + 2)) = 0 := by
  funext i j
  simp only [wrapXtracer, setXcol]
  split_ifs <;> rfl

lemma periodicBCto_of_zero {a b : ℕ} : periodicBCto (0 : Mat (a + 2) (b + 2)) = 0 := by
  unfold periodicBCto
  rw [wrapXtracer_of_zero, ymirror_of_zero, fixCorners_of_zero]

lemma linLoop_inr_proj (dyn : Variant) :
    ∀ (fuel : ℕ) (mc : SW nx ny) (k : ℕ) (acc : List (Mat nx ny)) (me : SW nx ny),
      linLoop dyn fuel mc k acc = .inr me →
      me.pu = mc.pu ∧ me.pv = mc.pv ∧ me.pphi = mc.pphi ∧ me.t = mc.t ∧
        me.tc = mc.tc ∧ tracerEnvOf me = tracerEnvOf mc := by
  intro fuel
  induction fuel with
  | zero =>
    intro mc k acc me h
    rw [linLoop_zero] at h
    exact absurd h (by simp)
  | succ fuel ih =>
    intro mc k acc me h
    by_cases hk : k < mc.tracers.length
    · cases hrt : tracerRhs dyn (tracerEnvOf mc) (mc.tracers.get ⟨k, hk⟩).2 with
      | none =>
        rw [linLoop_succ_none dyn fuel mc k acc hk hrt] at h
        have hme : mc = me := Sum.inr.inj h
        rw [← hme]
        exact ⟨rfl, rfl, rfl, rfl, rfl, rfl⟩
      | some f =>
        rw [linLoop_succ_some dyn fuel mc k acc hk f hrt] at h
        obtain ⟨h1, h2, h3, h4, h5, h6⟩ := ih _ _ _ _ h
        refine ⟨h1, h2, h3, h4, h5, ?_⟩
        rw [h6, tracerEnvOf_set_hist mc k hk]
    · rw [linLoop_stop dyn fuel mc k acc hk] at h
      exact absurd h (by simp)

/-- The all-ones interior used by the concrete two-tracer models. -/
def oneM : Mat 2 1 := fun _ _ => 1

/-- Name of the first registered tracer. -/
def aNm : String := "a"

/-- Name of the second registered tracer. -/
def bNm : String := "b"

/-- First tracer: zero field, constant user tendency `1`, no diffusion, no
damping, fresh integrator. -/
def trA : Tracer 2 1 := ⟨0, 0, false, fun _ => some oneM, []⟩

/-- Second tracer: zero field, a user tendency that reads tracer `a` back out
of the model view it is handed (as a coupled-tracer driver would via
`model.tracer('a')`). -/
def trB : Tracer 2 1 :=
  ⟨0, 0, false, fun v => some ((List.lookup aNm v.tracers).getD 0), []⟩

/-- Second tracer, faulting flavour: its user tendency raises. -/
def trBexc : Tracer 2 1 := ⟨0, 0, false, fun _ => none, []⟩

/-- A minimal model (`nx = 2`, `ny = 1`, `dt = 1`, all fields and parameters
zero, well-formed one-row sponge) carrying tracers `a` and `b` above. -/
def c2m : SW 2 1 :=
  { f0 := 0, beta := 0, nu := 0, nuPhi := 0, r := 0, g := 0, H := 0, dt := 1,
    dx := 1, dy := 1, uy := fun _ => 0, vy := fun _ => 0, spongeNY := 1,
    sponge := fun _ => 0, pu := 0, pv := 0, pphi := 0,
    tracers := [(aNm, trA), (bNm, trB)], forcings := [], stateHist := [],
    t := 0, tc := 0 }

/-- Same model but with the faulting second tracer. -/
def c6m : SW 2 1 := { c2m with tracers := [(aNm, trA), (bNm, trBexc)] }

/-- The model the `linear.py` `step()` leaves behind when tracer `b` raises. -/
def c6lres : SW 2 1 :=
  match stepOf .linBase .periodic c6m with
  | .ok m => m
  | .exc m => m

lemma c2bc_len : (applyAllBC .periodic c2m).tracers.length = 2 := rfl

lemma c2pads : (applyAllBC .periodic c2m).pu = 0 ∧ (applyAllBC .periodic c2m).pv = 0 ∧
    (applyAllBC .periodic c2m).pphi = 0 := by
  obtain ⟨hbu, hbv, hbp⟩ := applyStateBC_of_zero .periodic c2m rfl rfl rfl
  exact ⟨((applyAllBC_proj .periodic c2m).1).trans hbu,
    ((applyAllBC_proj .periodic c2m).2.1).trans hbv,
    ((applyAllBC_proj .periodic c2m).2.2.1).trans hbp⟩

lemma c2rhs : rhsOf .nonlin (applyAllBC .periodic c2m) = some 0 := by
  obtain ⟨h1, h2, h3⟩ := c2pads
  exact rhsOf_zero .nonlin _ h1 h2 h3 rfl (Nat.le_refl 1) (Nat.le_refl 1)

/-- The boundary-corrected snapshot of `c2m` with the state tendency already
pushed into the integrator history (the model as it stands entering the
nonlinear tracer loop). -/
def c2m3 : SW 2 1 :=
  { applyAllBC .periodic c2m with
    stateHist := histPush (applyAllBC .periodic c2m).stateHist 0 }

lemma c2len3 : c2m3.tracers.length = 2 := rfl

lemma c2h0 : 0 < c2m3.tracers.length := by rw [c2len3]; norm_num

/-- `c2m3` after the nonlinear loop has committed tracer `a`. -/
def c2mc1 : SW 2 1 :=
  { c2m3 with
    tracers := c2m3.tracers.set 0 ((c2m3.tracers.get ⟨0, c2h0⟩).1,
      { (c2m3.tracers.get ⟨0, c2h0⟩).2 with
        field := setInterior (c2m3.tracers.get ⟨0, c2h0⟩).2.field
          (interior (c2m3.tracers.get ⟨0, c2h0⟩).2.field
            + abInc c2m3.dt (c2m3.tracers.get ⟨0, c2h0⟩).2.hist oneM)
        hist := histPush (c2m3.tracers.get ⟨0, c2h0⟩).2.hist oneM }) }

lemma c2len1 : c2mc1.tracers.length = 2 := rfl

lemma c2h1 : 1 < c2mc1.tracers.length := by rw [c2len1]; norm_num

/-- What tracer `b`'s user tendency returns inside the loop: tracer `a`'s
value as read from the live (already updated) model. -/
def gB2 : Mat 2 1 := (List.lookup aNm (viewOf c2mc1).tracers).getD 0

/-- `c2mc1` after the nonlinear loop has also committed tracer `b`. -/
def c2mc2 : SW 2 1 :=
  { c2mc1 with
    tracers := c2mc1.tracers.set 1 ((c2mc1.tracers.get ⟨1, c2h1⟩).1,
      { (c2mc1.tracers.get ⟨1, c2h1⟩).2 with
        field := setInterior (c2mc1.tracers.get ⟨1, c2h1⟩).2.field
          (interior (c2mc1.tracers.get ⟨1, c2h1⟩).2.field
            + abInc c2mc1.dt (c2mc1.tracers.get ⟨1, c2h1⟩).2.hist gB2)
        hist := histPush (c2mc1.tracers.get ⟨1, c2h1⟩).2.hist gB2 }) }

/-- The model `step()` returns on `c2m`. -/
def c2fin : SW 2 1 :=
  advanceClock (commitState c2mc2
    (stateTriple (applyAllBC .periodic c2m)
      + abInc (applyAllBC .periodic c2m).dt (applyAllBC .periodic c2m).stateHist 0))

lemma c2fin_len : c2fin.tracers.length = 2 := rfl

lemma c2envu3 : (tracerEnvOf c2m3).u = 0 := by
  show interior (applyAllBC .periodic c2m).pu = 0
  rw [c2pads.1]
  exact interior_zero

lemma c2envv3 : (tracerEnvOf c2m3).v = 0 := by
  show interior (applyAllBC .periodic c2m).pv = 0
  rw [c2pads.2.1]
  exact interior_zero

lemma c2trA : tracerRhs .nonlin (tracerEnvOf c2m3) ((c2m3.tracers.get ⟨0, c2h0⟩).2)
    = some oneM := by
  rw [tracerRhs_zero_uv .nonlin (tracerEnvOf c2m3) ((c2m3.tracers.get ⟨0, c2h0⟩).2)
    c2envu3 c2envv3 rfl rfl]
  rfl

lemma c2trB : tracerRhs .nonlin (tracerEnvOf c2mc1) ((c2mc1.tracers.get ⟨1, c2h1⟩).2)
    = some gB2 := by
  rw [tracerRhs_zero_uv .nonlin (tracerEnvOf c2mc1) ((c2mc1.tracers.get ⟨1, c2h1⟩).2)
    c2envu3 c2envv3 rfl rfl]
  rfl

lemma c2loop : nlLoop .nonlin c2m3.tracers.length c2m3 0 = .ok c2mc2 := by
  show nlLoop .nonlin (1 + 1) c2m3 0 = .ok c2mc2
  rw [nlLoop_succ_some .nonlin 1 c2m3 0 c2h0 oneM c2trA]
  show nlLoop .nonlin (0 + 1) c2mc1 1 = .ok c2mc2
  rw [nlLoop_succ_some .nonlin 0 c2mc1 1 c2h1 gB2 c2trB]
  show nlLoop .nonlin 0 c2mc2 2 = .ok c2mc2
  exact nlLoop_zero .nonlin c2mc2 2

lemma c2step : stepOf .nonlin .periodic c2m = .ok c2fin := by
  simp only [stepOf, c2rhs]
  cases hl : nlLoop .nonlin
      ({ applyAllBC .periodic c2m with
          stateHist := histPush (applyAllBC .periodic c2m).stateHist 0 } : SW 2 1).tracers.length
      { applyAllBC .periodic c2m with
          stateHist := histPush (applyAllBC .periodic c2m).stateHist 0 } 0 with
  | exc me =>
    have hl' : nlLoop .nonlin c2m3.tracers.length c2m3 0 = .exc me := hl
    exact absurd (c2loop.symm.trans hl') (by simp)
  | ok m4 =>
    have hl' : nlLoop .nonlin c2m3.tracers.length c2m3 0 = .ok m4 := hl
    have hm4 : c2mc2 = m4 := StepRes.ok.inj (c2loop.symm.trans hl')
    rw [← hm4]
    rfl

lemma gB2_eq_oneM : gB2 = oneM := by
  have hgB : gB2 = interior (setInterior (periodicBCto (0 : Mat (2 + 2) (1 + 2)))
      (interior (periodicBCto (0 : Mat (2 + 2) (1 + 2)))
        + abInc (1 : ℚ) [] oneM)) := rfl
  rw [interior_setInterior, periodicBCto_of_zero, interior_zero,
    show abInc (1 : ℚ) ([] : List (Mat 2 1)) oneM = (1 : ℚ) • oneM from rfl,
    one_smul, zero_add] at hgB
  exact hgB

lemma c6pads : (applyAllBC .periodic c6m).pu = 0 ∧ (applyAllBC .periodic c6m).pv = 0 ∧
    (applyAllBC .periodic c6m).pphi = 0 := by
  obtain ⟨hbu, hbv, hbp⟩ := applyStateBC_of_zero .periodic c6m rfl rfl rfl
  exact ⟨((applyAllBC_proj .periodic c6m).1).trans hbu,
    ((applyAllBC_proj .periodic c6m).2.1).trans hbv,
    ((applyAllBC_proj .periodic c6m).2.2.1).trans hbp⟩

lemma c6rhs : rhsOf .nonlin (applyAllBC .periodic c6m) = some 0 := by
  obtain ⟨h1, h2, h3⟩ := c6pads
  exact rhsOf_zero .nonlin _ h1 h2 h3 rfl (Nat.le_refl 1) (Nat.le_refl 1)

/-- The boundary-corrected snapshot of `c6m` entering the nonlinear loop. -/
def c6m3 : SW 2 1 :=
  { applyAllBC .periodic c6m with
    stateHist := histPush (applyAllBC .periodic c6m).stateHist 0 }

lemma c6len3 : c6m3.tracers.length = 2 := rfl

lemma c6h0 : 0 < c6m3.tracers.length := by rw [c6len3]; norm_num

/-- `c6m3` after the nonlinear loop has committed tracer `a` — exactly the
model the raise in tracer `b`'s tendency escapes with. -/
def c6mc1 : SW 2 1 :=
  { c6m3 with
    tracers := c6m3.tracers.set 0 ((c6m3.tracers.get ⟨0, c6h0⟩).1,
      { (c6m3.tracers.get ⟨0, c6h0⟩).2 with
        field := setInterior (c6m3.tracers.get ⟨0, c6h0⟩).2.field
          (interior (c6m3.tracers.get ⟨0, c6h0⟩).2.field
            + abInc c6m3.dt (c6m3.tracers.get ⟨0, c6h0⟩).2.hist oneM)
        hist := histPush (c6m3.tracers.get ⟨0, c6h0⟩).2.hist oneM }) }

lemma c6len1 : c6mc1.tracers.length = 2 := rfl

lemma c6h1 : 1 < c6mc1.tracers.length := by rw [c6len1]; norm_num

lemma c6envu3 : (tracerEnvOf c6m3).u = 0 := by
  show interior (applyAllBC .periodic c6m).pu = 0
  rw [c6pads.1]
  exact interior_zero

lemma c6envv3 : (tracerEnvOf c6m3).v = 0 := by
  show interior (applyAllBC .periodic c6m).pv = 0
  rw [c6pads.2.1]
  exact interior_zero

lemma c6trA : tracerRhs .nonlin (tracerEnvOf c6m3) ((c6m3.tracers.get ⟨0, c6h0⟩).2)
    = some oneM := by
  rw [tracerRhs_zero_uv .nonlin (tracerEnvOf c6m3) ((c6m3.tracers.get ⟨0, c6h0⟩).2)
    c6envu3 c6envv3 rfl rfl]
  rfl

lemma c6trB : tracerRhs .nonlin (tracerEnvOf c6mc1) ((c6mc1.tracers.get ⟨1, c6h1⟩).2)
    = none := by
  rw [tracerRhs_zero_uv .nonlin (tracerEnvOf c6mc1) ((c6mc1.tracers.get ⟨1, c6h1⟩).2)
    c6envu3 c6envv3 rfl rfl]
  rfl

lemma c6loop : nlLoop .nonlin c6m3.tracers.length c6m3 0 = .exc c6mc1 := by
  show nlLoop .nonlin (1 + 1) c6m3 0 = .exc c6mc1
  rw [nlLoop_succ_some .nonlin 1 c6m3 0 c6h0 oneM c6trA]
  show nlLoop .nonlin (0 + 1) c6mc1 1 = .exc c6mc1
  exact nlLoop_succ_none .nonlin 0 c6mc1 1 c6h1 c6trB

lemma c6step : stepOf .nonlin .periodic c6m = .exc c6mc1 := by
  simp only [stepOf, c6rhs]
  cases hl : nlLoop .nonlin
      ({ applyAllBC .periodic c6m with
          stateHist := histPush (applyAllBC .periodic c6m).stateHist 0 } : SW 2 1).tracers.length
      { applyAllBC .periodic c6m with
          stateHist := histPush (applyAllBC .periodic c6m).stateHist 0 } 0 with
  | exc me =>
    have hl' : nlLoop .nonlin c6m3.tracers.length c6m3 0 = .exc me := hl
    have hme : c6mc1 = me := StepRes.exc.inj (c6loop.symm.trans hl')
    rw [← hme]
  | ok m4 =>
    have hl' : nlLoop .nonlin c6m3.tracers.length c6m3 0 = .ok m4 := hl
    exact absurd (c6loop.symm.trans hl') (by simp)

/-- C2: within one `step()`, every increment is computed from the single
boundary-corrected snapshot taken at the start of the step, and commits use
only values from that snapshot.  Amended: this holds unconditionally for both
`linear.py` classes (which stash `newfields` and commit after the tracer
loop), but for `nonlinear.py` only when at most one tracer is registered,
because its tracer loop commits each tracer's field before evaluating the
next tracer's tendency. -/
theorem C2_amended_snapshot_per_variant :
    (∀ (nx ny : ℕ) (bcv : BCVariant) (m : SW nx ny), SnapshotProp .linBase bcv m) ∧
    (∀ (nx ny : ℕ) (bcv : BCVariant) (m : SW nx ny), SnapshotProp .linLinear bcv m) ∧
    (∀ (nx ny : ℕ) (bcv : BCVariant) (m : SW nx ny),
      m.tracers.length ≤ 1 → SnapshotProp .nonlin bcv m) :=
  ⟨fun _ _ bcv m => snapshot_linBase bcv m,
   fun _ _ bcv m => snapshot_linLinear bcv m,
   fun _ _ bcv m hl => snapshot_nonlin_le_one bcv m hl⟩

/-- Concrete tracer-free model for the C2 witness: `ny = 7` gives the
well-formed one-row sponge (`sponge_ny = 1`), so `step()` genuinely
completes on it. -/
def c2wm : SW 2 7 := swMk 2 7 10 10 0 0 1 1 1 1 1 1 fun _ => 0

lemma c2wlrhs : rhsOf .linBase (applyAllBC .periodic c2wm) = some 0 := by
  obtain ⟨h1, h2, h3⟩ := applyStateBC_of_zero .periodic c2wm rfl rfl rfl
  exact rhsOf_zero .linBase _ h1 h2 h3 rfl (Nat.le_refl 1) (by decide)

lemma c2wnrhs : rhsOf .nonlin (applyAllBC .walled c2wm) = some 0 := by
  obtain ⟨h1, h2, h3⟩ := applyStateBC_of_zero .walled c2wm rfl rfl rfl
  exact rhsOf_zero .nonlin _ h1 h2 h3 rfl (Nat.le_refl 1) (by decide)

/-- The model the `linear.py` `step()` returns on `c2wm`. -/
def c2wl : SW 2 7 :=
  advanceClock (commitState (commitFields
    { applyAllBC .periodic c2wm with
      stateHist := histPush (applyAllBC .periodic c2wm).stateHist 0 } [])
    (stateTriple (applyAllBC .periodic c2wm)
      + abInc (applyAllBC .periodic c2wm).dt (applyAllBC .periodic c2wm).stateHist 0))

/-- The model the nonlinear `step()` returns on `c2wm`. -/
def c2wn : SW 2 7 :=
  advanceClock (commitState
    { applyAllBC .walled c2wm with
      stateHist := histPush (applyAllBC .walled c2wm).stateHist 0 }
    (stateTriple (applyAllBC .walled c2wm)
      + abInc (applyAllBC .walled c2wm).dt (applyAllBC .walled c2wm).stateHist 0))

lemma c2wl_ok : stepOf .linBase .periodic c2wm = .ok c2wl := by
  simp only [stepOf, c2wlrhs]
  rw [linLoop_nil .linBase
      ({ applyAllBC .periodic c2wm with
        stateHist := histPush (applyAllBC .periodic c2wm).stateHist 0 } : SW 2 7).tracers.length
      { applyAllBC .periodic c2wm with
        stateHist := histPush (applyAllBC .periodic c2wm).stateHist 0 }
      0 [] rfl]
  rfl

lemma c2wn_ok : stepOf .nonlin .walled c2wm = .ok c2wn := by
  simp only [stepOf, c2wnrhs]
  rw [nlLoop_nil .nonlin
      ({ applyAllBC .walled c2wm with
        stateHist := histPush (applyAllBC .walled c2wm).stateHist 0 } : SW 2 7).tracers.length
      { applyAllBC .walled c2wm with
        stateHist := histPush (applyAllBC .walled c2wm).stateHist 0 }
      0 rfl]
  rfl

/-- Witness for C2's amended theorem at a concrete model on which `step()`
completes: both exercised variants return `.ok` (so the snapshot property's
hypothesis is genuinely discharged), and the snapshot rule's state-commit
equation is instantiated at that successful step. -/
theorem C2_amended_snapshot_per_variant_witness :
    (SnapshotProp .linBase .periodic c2wm ∧ stepOf .linBase .periodic c2wm = .ok c2wl ∧
      stateTriple c2wl = stateTriple (applyAllBC .periodic c2wm)
        + abInc (applyAllBC .periodic c2wm).dt (applyAllBC .periodic c2wm).stateHist 0) ∧
    (SnapshotProp .nonlin .walled c2wm ∧ stepOf .nonlin .walled c2wm = .ok c2wn) :=
  ⟨⟨C2_amended_snapshot_per_variant.1 2 7 .periodic c2wm, c2wl_ok,
    ((C2_amended_snapshot_per_variant.1 2 7 .periodic c2wm) c2wl c2wl_ok).1 0 c2wlrhs⟩,
   ⟨C2_amended_snapshot_per_variant.2.2 2 7 .walled c2wm (by decide), c2wn_ok⟩⟩

/-- C2 fails as stated for `nonlinear.py` with two tracers: tracer `b`'s
tendency reads tracer `a`'s already-committed value from the same step, so
the committed `b` differs from what the start-of-step snapshot prescribes. -/
theorem C2_counterexample : ¬ SnapshotProp .nonlin .periodic c2m := by
  intro h
  simp only [SnapshotProp] at h
  have hk : 1 < (applyAllBC .periodic c2m).tracers.length := by
    rw [c2bc_len]; norm_num
  have hk' : 1 < c2fin.tracers.length := by
    rw [c2fin_len]; norm_num
  have hg : tracerRhs .nonlin (tracerEnvOf (applyAllBC .periodic c2m))
      ((applyAllBC .periodic c2m).tracers.get ⟨1, hk⟩).2 = some 0 := by
    rw [tracerRhs_zero_uv .nonlin (tracerEnvOf (applyAllBC .periodic c2m))
      ((applyAllBC .periodic c2m).tracers.get ⟨1, hk⟩).2 c2envu3 c2envv3 rfl rfl]
    have hexpand : ((applyAllBC .periodic c2m).tracers.get ⟨1, hk⟩).2.userRhs
        (tracerEnvOf (applyAllBC .periodic c2m)).view
        = some ((List.lookup aNm
            [(aNm, interior (periodicBCto (0 : Mat (2 + 2) (1 + 2)))),
             (bNm, interior (periodicBCto (0 : Mat (2 + 2) (1 + 2))))]).getD 0) := rfl
    rw [hexpand, periodicBCto_of_zero, interior_zero]
    simp [List.lookup]
  obtain ⟨-, h2⟩ := h c2fin c2step
  have Heq := h2 1 hk hk' 0 hg
  have hR1 : interior (((applyAllBC .periodic c2m).tracers.get ⟨1, hk⟩).2.field)
      = 0 := by
    have hf : ((applyAllBC .periodic c2m).tracers.get ⟨1, hk⟩).2.field
        = periodicBCto (0 : Mat (2 + 2) (1 + 2)) := rfl
    rw [hf, periodicBCto_of_zero]
    exact interior_zero
  have hR2 : abInc (applyAllBC .periodic c2m).dt
      (((applyAllBC .periodic c2m).tracers.get ⟨1, hk⟩).2.hist) (0 : Mat 2 1)
      = 0 := by
    have hh : ((applyAllBC .periodic c2m).tracers.get ⟨1, hk⟩).2.hist
        = ([] : List (Mat 2 1)) := rfl
    rw [hh]
    simp [abInc]
  rw [hR1, hR2, add_zero] at Heq
  have Heq' : interior (setInterior (c2mc1.tracers.get ⟨1, c2h1⟩).2.field
      (interior (c2mc1.tracers.get ⟨1, c2h1⟩).2.field
        + abInc c2mc1.dt (c2mc1.tracers.get ⟨1, c2h1⟩).2.hist gB2)) = 0 := Heq
  rw [interior_setInterior,
    show (c2mc1.tracers.get ⟨1, c2h1⟩).2.field = periodicBCto (0 : Mat (2 + 2) (1 + 2))
      from rfl,
    show (c2mc1.tracers.get ⟨1, c2h1⟩).2.hist = ([] : List (Mat 2 1)) from rfl,
    show c2mc1.dt = (1 : ℚ) from rfl,
    periodicBCto_of_zero, interior_zero,
    show abInc (1 : ℚ) ([] : List (Mat 2 1)) gB2 = (1 : ℚ) • gB2 from rfl,
    one_smul, zero_add, gB2_eq_oneM] at Heq'
  have hcell := congrFun (congrFun Heq' 0) 0
  simp only [oneM, Pi.zero_apply] at hcell
  exact absurd hcell (by norm_num)

/-- C6 amended: for the two `linear.py` classes, a tracer-tendency fault
escaping `step()` leaves the model exactly as the start-of-step boundary
update left it — the padded state fields, the public view (state and tracer
interiors), and the damping parameters all equal the boundary-corrected
snapshot's, and the clock and step counter are unchanged from before the
call.  (The nonlinear class gives no such guarantee: see the C6
counterexample.) -/
theorem C6_amended_linear_fault_leaves_snapshot {nx ny : ℕ} (dyn : Variant)
    (hdyn : dyn = .linBase ∨ dyn = .linLinear) (bcv : BCVariant)
    (m me : SW nx ny) (hstep : stepOf dyn bcv m = .exc me) :
    me.pu = (applyAllBC bcv m).pu ∧ me.pv = (applyAllBC bcv m).pv ∧
      me.pphi = (applyAllBC bcv m).pphi ∧
      tracerEnvOf me = tracerEnvOf (applyAllBC bcv m) ∧
      me.t = m.t ∧ me.tc = m.tc := by
  have ht : (applyAllBC bcv m).t = m.t :=
    (applyAllBC_proj bcv m).2.2.2.2.2.2.2.2.2.1
  have htc : (applyAllBC bcv m).tc = m.tc :=
    (applyAllBC_proj bcv m).2.2.2.2.2.2.2.2.2.2
  cases dyn with
  | nonlin =>
    rcases hdyn with h | h <;> exact Variant.noConfusion h
  | linBase =>
    cases hr : rhsOf .linBase (applyAllBC bcv m) with
    | none =>
      simp only [stepOf, hr] at hstep
      have hme : applyAllBC bcv m = me := by
        first
        | exact hstep
        | exact StepRes.exc.inj hstep
      rw [← hme]
      exact ⟨rfl, rfl, rfl, rfl, ht, htc⟩
    | some f =>
      simp only [stepOf, hr] at hstep
      revert hstep
      cases hl : linLoop .linBase
          ({ applyAllBC bcv m with
              stateHist := histPush (applyAllBC bcv m).stateHist f } : SW nx ny).tracers.length
          { applyAllBC bcv m with
              stateHist := histPush (applyAllBC bcv m).stateHist f } 0 [] with
      | inl p =>
        obtain ⟨m4, nf⟩ := p
        intro hstep
        exact absurd hstep (by simp)
      | inr me' =>
        intro hstep
        have hme : me' = me := by
          first
          | exact hstep
          | exact StepRes.exc.inj hstep
        rw [← hme]
        obtain ⟨h1, h2, h3, h4, h5, h6⟩ := linLoop_inr_proj .linBase _ _ _ _ _ hl
        have h4' : me'.t = (applyAllBC bcv m).t := h4
        have h5' : me'.tc = (applyAllBC bcv m).tc := h5
        exact ⟨h1, h2, h3, h6, h4'.trans ht, h5'.trans htc⟩
  | linLinear =>
    cases hr : rhsOf .linLinear (applyAllBC bcv m) with
    | none =>
      simp only [stepOf, hr] at hstep
      have hme : applyAllBC bcv m = me := by
        first
        | exact hstep
        | exact StepRes.exc.inj hstep
      rw [← hme]
      exact ⟨rfl, rfl, rfl, rfl, ht, htc⟩
    | some f =>
      simp only [stepOf, hr] at hstep
      revert hstep
      cases hl : linLoop .linLinear
          ({ applyAllBC bcv m with
              stateHist := histPush (applyAllBC bcv m).stateHist f } : SW nx ny).tracers.length
          { applyAllBC bcv m with
              stateHist := histPush (applyAllBC bcv m).stateHist f } 0 [] with
      | inl p =>
        obtain ⟨m4, nf⟩ := p
        intro hstep
        exact absurd hstep (by simp)
      | inr me' =>
        intro hstep
        have hme : me' = me := by
          first
          | exact hstep
          | exact StepRes.exc.inj hstep
        rw [← hme]
        obtain ⟨h1, h2, h3, h4, h5, h6⟩ := linLoop_inr_proj .linLinear _ _ _ _ _ hl
        have h4' : me'.t = (applyAllBC bcv m).t := h4
        have h5' : me'.tc = (applyAllBC bcv m).tc := h5
        exact ⟨h1, h2, h3, h6, h4'.trans ht, h5'.trans htc⟩

/-- Witness for C6's amended theorem: a concrete `linear.py` model whose
second tracer tendency raises. -/
theorem C6_amended_linear_fault_leaves_snapshot_witness :
    c6lres.pu = (applyAllBC .periodic c6m).pu ∧
      c6lres.pv = (applyAllBC .periodic c6m).pv ∧
      c6lres.pphi = (applyAllBC .periodic c6m).pphi ∧
      tracerEnvOf c6lres = tracerEnvOf (applyAllBC .periodic c6m) ∧
      c6lres.t = c6m.t ∧ c6lres.tc = c6m.tc :=
  C6_amended_linear_fault_leaves_snapshot .linBase (Or.inl rfl) .periodic
    c6m c6lres rfl

/-- C6 fails as stated for `nonlinear.py`: when tracer `b`'s tendency raises,
`step()` escapes after tracer `a` has already been committed, so the publicly
readable value of `a` has changed — a partial commit. -/
theorem C6_counterexample :
    stepOf .nonlin .periodic c6m = .exc c6mc1 ∧
      tracer c6m aNm = some 0 ∧
      tracer c6mc1 aNm = some oneM ∧
      oneM ≠ 0 := by
  refine ⟨c6step, rfl, ?_, ?_⟩
  · have hstart : tracer c6mc1 aNm
        = some (interior (setInterior (periodicBCto (0 : Mat (2 + 2) (1 + 2)))
            (interior (periodicBCto (0 : Mat (2 + 2) (1 + 2)))
              + abInc (1 : ℚ) [] oneM))) := rfl
    rw [hstart, interior_setInterior, periodicBCto_of_zero, interior_zero,
      show abInc (1 : ℚ) ([] : List (Mat 2 1)) oneM = (1 : ℚ) • oneM from rfl,
      one_smul, zero_add]
  · intro hcon
    have hcell := congrFun (congrFun hcon 0) 0
    simp only [oneM, Pi.zero_apply] at hcell
    exact absurd hcell (by norm_num)

end ShallowWaterSpec
